import Mathlib

/-!
# Shortest-Job-First (non-preemptive) scheduler of `finals3.js`

A shallow embedding of `calculateSchedule` and of the averages of `renderResults`.

Modelling conventions.

* The numbers of the script come from `parseInt` and `Date.now()`; they are integer-valued
  doubles and a number is modelled by the `Int` it holds. The operators `+` and `-` of the script
  are `numAdd` and `numSub`: the exact result rounded to the nearest double (`roundDouble`), which
  changes nothing up to `2^53` and loses the low bits beyond. `Infinity` and `NaN` (a digit string
  beyond the largest double, about `1.8e308`) are outside the model.
* The global array `processes` is the argument of `calculateSchedule`.
* `Array.prototype.sort` with a comparator is a stable sort. All three comparators of the script
  are consistent (they compare a key), so the sorted array is determined by the comparator and by
  stability; it is modelled by a stable insertion sort, `jsSort`.
* The `while` loop is modelled by a fuel-indexed recursion `whileLoop`; `calculateSchedule`
  supplies `2 * processes.length` units of fuel and the development proves that this is always
  enough.
* The averages of `renderResults` are kept as exact rationals; the digits that `toFixed(2)`
  prints are computed from the double nearest to them.
* DOM updates of `renderResults` are not modelled; the two lists it receives are the result.
-/

namespace SJF

/-- A process record as built by `addProcess` (lines 45-51). -/
structure Process where
  id : Int
  name : String
  arrivalTime : Int
  burstTime : Int
  color : String
  deriving DecidableEq, Repr

/-- An entry of `ganttSchedule` (lines 151-155): the selected process spread, plus two times. -/
structure GanttSlot extends Process where
  startTime : Int
  completionTime : Int
  deriving DecidableEq, Repr

/-- An entry of `completedProcesses` (lines 158-163). -/
structure CompletedProcess extends Process where
  completionTime : Int
  turnaroundTime : Int
  waitingTime : Int
  deriving DecidableEq, Repr

/-- The spacing of the doubles around `n`, for `n > 2^53`: the power of two `q`, starting from
`q = 2`, with `2^52 * q ≤ n < 2^53 * q`. The fuel bounds the number of doublings; 1024 covers the
whole range of finite doubles. -/
def quantum : Nat → Nat → Nat → Nat
  | 0, _, q => q
  | fuel + 1, n, q => if n < 2 ^ 53 * q then q else quantum fuel n (2 * q)

/-- The integer held by the double nearest to the integer `x`: 53 significant bits, round to
nearest, ties to the even significand. Integers of magnitude up to `2^53` are doubles. -/
def roundDouble (x : Int) : Int :=
  let n := x.natAbs
  if n ≤ 2 ^ 53 then x
  else
    let q := quantum 1024 n 2
    let r := n % q
    let lo := n - r
    let up :=
      if 2 * r < q then lo
      else if q < 2 * r then lo + q
      else if (lo / q) % 2 = 0 then lo else lo + q
    if x < 0 then -(up : Int) else (up : Int)

/-- The operator `+` of the script on two numbers. -/
def numAdd (a b : Int) : Int :=
  roundDouble (a + b)

/-- The operator `-` of the script on two numbers. -/
def numSub (a b : Int) : Int :=
  roundDouble (a - b)

/-- Insertion of `x` in front of the first element that is not strictly smaller. -/
def insertSorted {α : Type} (cmp : α → α → Int) (x : α) : List α → List α
  | [] => [x]
  | y :: ys => if cmp x y ≤ 0 then x :: y :: ys else y :: insertSorted cmp x ys

/-- The stable sort `Array.prototype.sort(cmp)`: an element `a` is put before `b` when
`cmp a b < 0`, and elements that compare equal keep their relative order. -/
def jsSort {α : Type} (cmp : α → α → Int) : List α → List α
  | [] => []
  | x :: xs => insertSorted cmp x (jsSort cmp xs)

/-- The method `Array.prototype.findIndex`: the first index whose element satisfies the predicate,
`-1` when there is none. -/
def findIndex {α : Type} (pred : α → Bool) : List α → Int
  | [] => -1
  | x :: xs =>
    if pred x then 0
    else
      let i := findIndex pred xs
      if i < 0 then -1 else i + 1

/-- The comparator of lines 115-120: arrival time, then burst time. -/
def arrivalBurstCmp (a b : Process) : Int :=
  if a.arrivalTime = b.arrivalTime then numSub a.burstTime b.burstTime
  else numSub a.arrivalTime b.arrivalTime

/-- The comparator of line 138: burst time. -/
def burstCmp (a b : Process) : Int :=
  numSub a.burstTime b.burstTime

/-- The comparator of lines 169-173: position of the id in the original `processes`. -/
def originalOrderCmp (processes : List Process) (a b : CompletedProcess) : Int :=
  let aIndex := findIndex (fun p => p.id == a.id) processes
  let bIndex := findIndex (fun p => p.id == b.id) processes
  numSub aIndex bIndex

/-- The local variables of `calculateSchedule` that the `while` loop updates (lines 122-125). -/
structure State where
  currentTime : Int
  completedProcesses : List CompletedProcess
  remainingProcesses : List Process
  ganttSchedule : List GanttSlot
  deriving DecidableEq, Repr

/-- The array `sortedProcesses` (lines 115-120). -/
def sortedProcesses (processes : List Process) : List Process :=
  jsSort arrivalBurstCmp processes

/-- The state at the first test of the loop condition (lines 122-125). -/
def initialState (processes : List Process) : State :=
  { currentTime := 0
    completedProcesses := []
    remainingProcesses := sortedProcesses processes
    ganttSchedule := [] }

/-- The array `availableProcesses` before it is sorted (line 129). -/
def availableProcesses (st : State) : List Process :=
  st.remainingProcesses.filter (fun p => p.arrivalTime ≤ st.currentTime)

/-- The body of the `while` loop (lines 128-165), one iteration. It is only run when
`remainingProcesses` is not empty, so `remainingProcesses[0]` exists in the idle branch, and
`availableProcesses[0]` exists in the other branch because a sort keeps the length; the two
branches without an element return the state unchanged and are never taken inside the loop. -/
def loopBody (st : State) : State :=
  let available := availableProcesses st
  if available.length = 0 then
    match st.remainingProcesses with
    | [] => st
    | first :: _ => { st with currentTime := first.arrivalTime }
  else
    match jsSort burstCmp available with
    | [] => st
    | selectedProcess :: _ =>
      let remaining := st.remainingProcesses.filter (fun p => p.id != selectedProcess.id)
      let startTime := st.currentTime
      let completionTime := numAdd st.currentTime selectedProcess.burstTime
      let turnaroundTime := numSub completionTime selectedProcess.arrivalTime
      let waitingTime := numSub turnaroundTime selectedProcess.burstTime
      { currentTime := completionTime
        completedProcesses := st.completedProcesses ++
          [{ selectedProcess with
              completionTime := completionTime
              turnaroundTime := turnaroundTime
              waitingTime := waitingTime }]
        remainingProcesses := remaining
        ganttSchedule := st.ganttSchedule ++
          [{ selectedProcess with
              startTime := startTime
              completionTime := completionTime }] }

/-- The `while (remainingProcesses.length > 0)` loop (lines 127-166); `none` when the fuel is
used up before the loop condition becomes false. -/
def whileLoop : Nat → State → Option State
  | 0, st => if st.remainingProcesses.length > 0 then none else some st
  | fuel + 1, st =>
    if st.remainingProcesses.length > 0 then whileLoop fuel (loopBody st) else some st

/-- The two kinds of iteration of the loop: the idle jump of lines 131-135 (which ends in
`continue`) and the selection of lines 137-165. -/
inductive IterationKind where
  | idleJump
  | selecting
  deriving DecidableEq, Repr

/-- The kind of the iteration that starts in `st`, i.e. the test of line 131. -/
def iterationKind (st : State) : IterationKind :=
  if (availableProcesses st).length = 0 then .idleJump else .selecting

/-- The kinds of the iterations that `whileLoop` performs from `st`, in order (same loop condition
and same body as `whileLoop`, recording the branch taken instead of the final state). -/
def iterationKinds : Nat → State → List IterationKind
  | 0, _ => []
  | fuel + 1, st =>
    if st.remainingProcesses.length > 0 then
      iterationKind st :: iterationKinds fuel (loopBody st)
    else []

/-- What a call of `calculateSchedule` ends with. -/
inductive Outcome where
  /-- The early return of lines 109-112, after `alert`. -/
  | alert (message : String)
  /-- The call `renderResults(completedProcesses, ganttSchedule)` of line 175. -/
  | rendered (completedProcesses : List CompletedProcess) (ganttSchedule : List GanttSlot)
  /-- The loop did not finish within the fuel of the model. -/
  | outOfFuel
  deriving DecidableEq, Repr

/-- The function `calculateSchedule` (lines 108-176). -/
def calculateSchedule (processes : List Process) : Outcome :=
  if processes.length = 0 then .alert "Please add at least one process"
  else
    match whileLoop (2 * processes.length) (initialState processes) with
    | none => .outOfFuel
    | some st =>
      .rendered (jsSort (originalOrderCmp processes) st.completedProcesses) st.ganttSchedule

/-- The quotient of line 210 before `toFixed`: sum of the turnaround times over the count, as an
exact rational. The script holds the double nearest to it; that rounding is part of `toFixed2`. -/
def avgTAT (completedProcesses : List CompletedProcess) : ℚ :=
  ((completedProcesses.map (fun p => p.turnaroundTime)).foldl (fun sum x => numAdd sum x) 0 : Int)
    / (completedProcesses.length : ℚ)

/-- The quotient of line 211 before `toFixed`: sum of the waiting times over the count, as an
exact rational. The script holds the double nearest to it; that rounding is part of `toFixed2`. -/
def avgWT (completedProcesses : List CompletedProcess) : ℚ :=
  ((completedProcesses.map (fun p => p.waitingTime)).foldl (fun sum x => numAdd sum x) 0 : Int)
    / (completedProcesses.length : ℚ)

/-- Doubling of `n` until `d * 2^52 ≤ n`, with the number of doublings; at most `fuel` of them
(1074 of them reach the smallest quantum of a double, `2^-1074`). -/
def scaleUp : Nat → Nat → Nat → Nat → Nat × Nat
  | 0, n, _, k => (n, k)
  | fuel + 1, n, d, k => if n < d * 2 ^ 52 then scaleUp fuel (2 * n) d (k + 1) else (n, k)

/-- Doubling of `d` until `n < d * 2^53`, with the number of doublings. -/
def scaleDown : Nat → Nat → Nat → Nat → Nat × Nat
  | 0, _, d, k => (d, k)
  | fuel + 1, n, d, k => if d * 2 ^ 53 ≤ n then scaleDown fuel n (2 * d) (k + 1) else (d, k)

/-- The double nearest to the quotient `n / d` of two naturals, `d > 0`: the pair `(M, a)` stands
for `M / 2^a`. The quotient is scaled by a power of two into `[2^52, 2^53)`, rounded to the
nearest integer, ties to the even one, and scaled back. -/
def doubleOfRatio (n d : Nat) : Nat × Nat :=
  let up := scaleUp 1074 n d 0
  let down := scaleDown 1024 up.1 d 0
  let q := up.1 / down.1
  let r := up.1 % down.1
  let m :=
    if 2 * r < down.1 then q
    else if down.1 < 2 * r then q + 1
    else if q % 2 = 0 then q else q + 1
  (m * 2 ^ down.2, up.2)

/-- The number of hundredths that `toFixed(2)` prints for the double nearest to the rational `x`
(the script divides two doubles, which gives the double nearest to the exact quotient). With
`M / 2^a` the magnitude of that double, the digits are the integer `n` with `n / 100` nearest to
`M / 2^a`, the larger one on a tie, i.e. the floor of `100 * M / 2^a + 1/2`; the sign is printed
in front. Values from `1e21` on, printed in exponent form, are outside the model. -/
def toFixed2 (x : ℚ) : Int :=
  let y := doubleOfRatio x.num.natAbs x.den
  let n : Nat := (200 * y.1 + 2 ^ y.2) / (2 * 2 ^ y.2)
  if x < 0 then -(n : Int) else (n : Int)

/-- The state after `k` iterations of the loop body from the initial state. Once
`remainingProcesses` is empty the loop is over and `loopBody` leaves the state as it is, so the
states in which the loop condition holds are the states at the head of an iteration. -/
def stateAfter (processes : List Process) (k : Nat) : State :=
  loopBody^[k] (initialState processes)

/-- `m` is the minimum arrival time among the processes of `l`. -/
def IsMinArrival (m : Int) (l : List Process) : Prop :=
  (∃ p ∈ l, p.arrivalTime = m) ∧ ∀ q ∈ l, m ≤ q.arrivalTime

/-- The input processes that no slot before position `i` of the timeline `g` accounts for;
processes are identified by their id, as line 142 does. -/
def notYetScheduled (processes : List Process) (g : List GanttSlot) (i : Nat) : List Process :=
  processes.filter (fun p => decide (p.id ∉ (g.take i).map (fun s => s.id)))

/-- Scenario A of the specification. -/
def scenarioA : List Process :=
  [ { id := 1, name := "A", arrivalTime := 0, burstTime := 5, color := "#FF6B6B" },
    { id := 2, name := "B", arrivalTime := 1, burstTime := 3, color := "#4ECDC4" },
    { id := 3, name := "C", arrivalTime := 2, burstTime := 1, color := "#45B7D1" } ]


/-- An input with a tie: the second and the third process arrive together with the same burst
time while the first one runs. -/
def scenarioTie : List Process :=
  [ { id := 1, name := "P1", arrivalTime := 0, burstTime := 3, color := "#FF6B6B" },
    { id := 2, name := "P2", arrivalTime := 1, burstTime := 2, color := "#4ECDC4" },
    { id := 3, name := "P3", arrivalTime := 1, burstTime := 2, color := "#45B7D1" } ]

/-- Scenario B of the specification: one process that arrives at time 10. -/
def scenarioB : List Process :=
  [ { id := 1, name := "A", arrivalTime := 10, burstTime := 2, color := "#FF6B6B" } ]

/-- The metrics table of scenario A, in input order. -/
def scenarioACompleted : List CompletedProcess :=
  [ { id := 1, name := "A", arrivalTime := 0, burstTime := 5, color := "#FF6B6B",
      completionTime := 5, turnaroundTime := 5, waitingTime := 0 },
    { id := 2, name := "B", arrivalTime := 1, burstTime := 3, color := "#4ECDC4",
      completionTime := 9, turnaroundTime := 8, waitingTime := 5 },
    { id := 3, name := "C", arrivalTime := 2, burstTime := 1, color := "#45B7D1",
      completionTime := 6, turnaroundTime := 4, waitingTime := 3 } ]

/-- The timeline of scenario A, in execution order. -/
def scenarioATimeline : List GanttSlot :=
  [ { id := 1, name := "A", arrivalTime := 0, burstTime := 5, color := "#FF6B6B",
      startTime := 0, completionTime := 5 },
    { id := 3, name := "C", arrivalTime := 2, burstTime := 1, color := "#45B7D1",
      startTime := 5, completionTime := 6 },
    { id := 2, name := "B", arrivalTime := 1, burstTime := 3, color := "#4ECDC4",
      startTime := 6, completionTime := 9 } ]

/-- The completion time of the last slot of `pre`, or `0` when `pre` has no slot: with
`pre = g.take i` this is the completion time of the slot before position `i`. -/
def lastCompletion (pre : List GanttSlot) : Int :=
  (pre.getLast?.map (fun s => s.completionTime)).getD 0

/-- What holds of a slot `s` of the timeline, `pre` being the slots pushed before it. -/
structure SlotOK (ps : List Process) (pre : List GanttSlot) (s : GanttSlot) : Prop where
  arrived : s.arrivalTime ≤ s.startTime
  completion : s.completionTime = numAdd s.startTime s.burstTime
  shortest : ∀ q ∈ ps, q.id ∉ pre.map (fun x => x.id) → q.arrivalTime ≤ s.startTime →
    s.burstTime ≤ q.burstTime
  start : ∃ m, IsMinArrival m (ps.filter (fun p => decide (p.id ∉ pre.map (fun x => x.id)))) ∧
    s.startTime = max (lastCompletion pre) m

/-- The sum of the burst times of a list of processes. -/
def totalBurst (l : List Process) : Int :=
  (l.map (fun p => p.burstTime)).sum

/-- The input keeps every time of the run within the integers that doubles hold exactly: the
latest arrival (0 if the arrivals are negative) plus the sum of all burst times is at most
`2^53`. -/
def WithinExactRange (ps : List Process) : Prop :=
  ∀ p ∈ ps, max 0 p.arrivalTime + totalBurst ps ≤ 2 ^ 53

/-- Two processes that arrive at `2^53` with burst time 1. -/
def scenarioLate : List Process :=
  [ { id := 1, name := "P1", arrivalTime := 9007199254740992, burstTime := 1, color := "#FF6B6B" },
    { id := 2, name := "P2", arrivalTime := 9007199254740992, burstTime := 1, color := "#4ECDC4" } ]

/-- One process that arrives at `2^53` with burst time 1. -/
def scenarioLateSingle : List Process :=
  [ { id := 1, name := "P1", arrivalTime := 9007199254740992, burstTime := 1, color := "#FF6B6B" } ]

/-- The result of `renderResults` on `scenarioLate`: both slots start and end at `2^53`. -/
def scenarioLateTimeline : List GanttSlot :=
  [ { id := 1, name := "P1", arrivalTime := 9007199254740992, burstTime := 1, color := "#FF6B6B",
      startTime := 9007199254740992, completionTime := 9007199254740992 },
    { id := 2, name := "P2", arrivalTime := 9007199254740992, burstTime := 1, color := "#4ECDC4",
      startTime := 9007199254740992, completionTime := 9007199254740992 } ]

/-- The metrics of `scenarioLate`. -/
def scenarioLateCompleted : List CompletedProcess :=
  [ { id := 1, name := "P1", arrivalTime := 9007199254740992, burstTime := 1, color := "#FF6B6B",
      completionTime := 9007199254740992, turnaroundTime := 0, waitingTime := -1 },
    { id := 2, name := "P2", arrivalTime := 9007199254740992, burstTime := 1, color := "#4ECDC4",
      completionTime := 9007199254740992, turnaroundTime := 0, waitingTime := -1 } ]

/-- The metrics of `scenarioLateSingle`. -/
def scenarioLateSingleCompleted : List CompletedProcess :=
  [ { id := 1, name := "P1", arrivalTime := 9007199254740992, burstTime := 1, color := "#FF6B6B",
      completionTime := 9007199254740992, turnaroundTime := 0, waitingTime := -1 } ]

/-- The timeline of `scenarioLateSingle`. -/
def scenarioLateSingleTimeline : List GanttSlot :=
  [ { id := 1, name := "P1", arrivalTime := 9007199254740992, burstTime := 1, color := "#FF6B6B",
      startTime := 9007199254740992, completionTime := 9007199254740992 } ]

/-- What the loop keeps in addition when every time of the run is an integer that a double holds
exactly. -/
structure InvExact (st : State) : Prop where
  time_nonneg : 0 ≤ st.currentTime
  time_bound : st.currentTime + totalBurst st.remainingProcesses ≤ 2 ^ 53
  slots_exact : ∀ s ∈ st.ganttSchedule, s.startTime < s.completionTime
  completed_exact : ∀ c ∈ st.completedProcesses, 0 ≤ c.arrivalTime →
    0 ≤ c.waitingTime ∧ c.burstTime ≤ c.turnaroundTime

/-- The timeline `g` has a slot for `p` at an earlier position than a slot for `q`. -/
def PlacedBefore (g : List GanttSlot) (p q : Process) : Prop :=
  ∃ i j : Nat, i < j ∧ (g[i]?).map GanttSlot.toProcess = some p ∧
    (g[j]?).map GanttSlot.toProcess = some q

/-- The invariant of the `while` loop. -/
structure Inv (ps : List Process) (st : State) : Prop where
  remaining_eq : st.remainingProcesses =
    (sortedProcesses ps).filter (fun p => decide (p.id ∉ st.ganttSchedule.map (fun x => x.id)))
  ids_nodup : (st.ganttSchedule.map (fun x => x.id)).Nodup
  slot_mem : ∀ s ∈ st.ganttSchedule, s.toProcess ∈ ps
  completed_eq : st.completedProcesses.map (fun c => c.toProcess) =
    st.ganttSchedule.map (fun s => s.toProcess)
  time : st.currentTime = lastCompletion st.ganttSchedule ∨
    ∃ m, IsMinArrival m st.remainingProcesses ∧
      st.currentTime = max (lastCompletion st.ganttSchedule) m
  slots : ∀ i s, st.ganttSchedule[i]? = some s → SlotOK ps (st.ganttSchedule.take i) s

/-! ## Facts about the arithmetic of doubles -/

theorem quantum_pos_le (fuel n q : Nat) (hq : 0 < q) (hqn : q ≤ n) :
    0 < quantum fuel n q ∧ quantum fuel n q ≤ n := by
  induction fuel generalizing q with
  | zero => exact ⟨hq, hqn⟩
  | succ fuel ih =>
    simp only [quantum]
    split_ifs with h
    · exact ⟨hq, hqn⟩
    · have h2 : 2 * q ≤ 2 ^ 53 * q := Nat.mul_le_mul_right q (by norm_num)
      exact ih (2 * q) (by omega) (by omega)

/-- Integers of magnitude up to `2^53` are doubles. -/
theorem roundDouble_of_natAbs_le {x : Int} (h : x.natAbs ≤ 2 ^ 53) : roundDouble x = x := by
  simp only [roundDouble, if_pos h]

/-- Rounding keeps the sign. -/
theorem roundDouble_nonpos_iff (x : Int) : roundDouble x ≤ 0 ↔ x ≤ 0 := by
  by_cases h : x.natAbs ≤ 2 ^ 53
  · rw [roundDouble_of_natAbs_le h]
  · simp only [roundDouble, if_neg h]
    have hbig : 2 ≤ x.natAbs := by
      have : (2 : Nat) ≤ 2 ^ 53 := by norm_num
      omega
    obtain ⟨hq0, hqn⟩ := quantum_pos_le 1024 x.natAbs 2 (by norm_num) hbig
    have hmod : x.natAbs % quantum 1024 x.natAbs 2 < quantum 1024 x.natAbs 2 :=
      Nat.mod_lt _ hq0
    have hlo : 0 < x.natAbs - x.natAbs % quantum 1024 x.natAbs 2 := by omega
    by_cases hx : x < 0
    · simp only [if_pos hx]
      constructor
      · intro _
        exact le_of_lt hx
      · intro _
        split_ifs <;> omega
    · simp only [if_neg hx]
      have hx0 : x ≠ 0 := by
        intro h0
        rw [h0] at h
        simp at h
      constructor
      · intro hle
        exfalso
        split_ifs at hle <;> omega
      · intro hle
        omega

theorem numSub_nonpos_iff (a b : Int) : numSub a b ≤ 0 ↔ a ≤ b := by
  rw [numSub, roundDouble_nonpos_iff]
  omega

theorem numAdd_exact {a b : Int} (h0 : 0 ≤ a + b) (h1 : a + b ≤ 2 ^ 53) : numAdd a b = a + b := by
  apply roundDouble_of_natAbs_le
  have : ((a + b).natAbs : Int) ≤ ((2 ^ 53 : Nat) : Int) := by
    rw [Int.natAbs_of_nonneg h0]
    exact_mod_cast h1
  exact_mod_cast this

theorem numSub_exact {a b : Int} (h0 : 0 ≤ a - b) (h1 : a - b ≤ 2 ^ 53) : numSub a b = a - b := by
  apply roundDouble_of_natAbs_le
  have : ((a - b).natAbs : Int) ≤ ((2 ^ 53 : Nat) : Int) := by
    rw [Int.natAbs_of_nonneg h0]
    exact_mod_cast h1
  exact_mod_cast this

theorem burstCmp_nonpos_iff (a b : Process) : burstCmp a b ≤ 0 ↔ a.burstTime ≤ b.burstTime := by
  rw [burstCmp, numSub_nonpos_iff]

theorem arrivalBurstCmp_nonpos_iff (a b : Process) :
    arrivalBurstCmp a b ≤ 0 ↔
      a.arrivalTime < b.arrivalTime ∨
        (a.arrivalTime = b.arrivalTime ∧ a.burstTime ≤ b.burstTime) := by
  simp only [arrivalBurstCmp]
  split_ifs with h
  · rw [numSub_nonpos_iff]
    constructor
    · intro hle
      exact Or.inr ⟨h, hle⟩
    · rintro (hlt | ⟨-, hle⟩)
      · omega
      · exact hle
  · rw [numSub_nonpos_iff]
    constructor
    · intro hle
      exact Or.inl (by omega)
    · rintro (hlt | ⟨heq, -⟩)
      · omega
      · exact absurd heq h

/-! ## Facts about the sort -/

theorem insertSorted_eq_orderedInsert {α : Type} (cmp : α → α → Int) (x : α) (l : List α) :
    insertSorted cmp x l = l.orderedInsert (fun a b => cmp a b ≤ 0) x := by
  induction l with
  | nil => rfl
  | cons y ys ih => simp only [insertSorted, List.orderedInsert, ih]

theorem jsSort_eq_insertionSort {α : Type} (cmp : α → α → Int) (l : List α) :
    jsSort cmp l = l.insertionSort (fun a b => cmp a b ≤ 0) := by
  induction l with
  | nil => rfl
  | cons y ys ih => simp only [jsSort, List.insertionSort, ih, insertSorted_eq_orderedInsert]

theorem jsSort_perm {α : Type} (cmp : α → α → Int) (l : List α) : (jsSort cmp l).Perm l := by
  rw [jsSort_eq_insertionSort]
  exact List.perm_insertionSort _ l

theorem mem_jsSort {α : Type} (cmp : α → α → Int) (l : List α) (x : α) :
    x ∈ jsSort cmp l ↔ x ∈ l :=
  (jsSort_perm cmp l).mem_iff

theorem jsSort_length {α : Type} (cmp : α → α → Int) (l : List α) :
    (jsSort cmp l).length = l.length :=
  (jsSort_perm cmp l).length_eq

/-- A sort by an integer key yields a list whose keys are non-decreasing. -/
theorem jsSort_sorted_of_key {α : Type} (cmp : α → α → Int)
    (total : ∀ a b, cmp a b ≤ 0 ∨ cmp b a ≤ 0)
    (trans : ∀ a b c, cmp a b ≤ 0 → cmp b c ≤ 0 → cmp a c ≤ 0) (l : List α) :
    (jsSort cmp l).Pairwise (fun a b => cmp a b ≤ 0) := by
  rw [jsSort_eq_insertionSort]
  haveI : IsTotal α (fun a b => cmp a b ≤ 0) := ⟨total⟩
  haveI : IsTrans α (fun a b => cmp a b ≤ 0) := ⟨trans⟩
  exact List.sorted_insertionSort (fun a b => cmp a b ≤ 0) l

/-- Stability: a sublist that is already in order stays a sublist. -/
theorem jsSort_stable {α : Type} (cmp : α → α → Int) {c l : List α}
    (hc : c.Pairwise (fun a b => cmp a b ≤ 0)) (hl : c.Sublist l) :
    c.Sublist (jsSort cmp l) := by
  rw [jsSort_eq_insertionSort]
  exact List.sublist_insertionSort hc hl

/-- Element 0 of a list sorted by burst time is the first element of the list that has the
smallest burst time. -/
theorem jsSort_burstCmp_head {l : List Process} {s : Process} {t : List Process}
    (h : jsSort burstCmp l = s :: t) :
    ∃ pre post, l = pre ++ s :: post ∧ (∀ x ∈ pre, s.burstTime < x.burstTime) ∧
      (∀ x ∈ post, s.burstTime ≤ x.burstTime) := by
  induction l generalizing s t with
  | nil => simp [jsSort] at h
  | cons x xs ih =>
    simp only [jsSort] at h
    cases hs : jsSort burstCmp xs with
    | nil =>
      have hxs : xs = [] := by
        have := jsSort_length burstCmp xs
        rw [hs] at this
        exact List.length_eq_zero.mp this.symm
      rw [hs] at h
      simp only [insertSorted, List.cons.injEq] at h
      exact ⟨[], [], by simp [hxs, h.1], by simp, by simp⟩
    | cons s' t' =>
      obtain ⟨pre, post, hxs, hpre, hpost⟩ := ih hs
      rw [hs] at h
      simp only [insertSorted] at h
      by_cases hc : burstCmp x s' ≤ 0
      · rw [if_pos hc] at h
        simp only [List.cons.injEq] at h
        obtain ⟨rfl, -⟩ := h
        refine ⟨[], xs, by simp, by simp, ?_⟩
        intro y hy
        rw [hxs] at hy
        rw [burstCmp_nonpos_iff] at hc
        rcases List.mem_append.mp hy with hy | hy
        · have := hpre y hy
          omega
        · rcases List.mem_cons.mp hy with rfl | hy
          · omega
          · have := hpost y hy
            omega
      · rw [if_neg hc] at h
        simp only [List.cons.injEq] at h
        obtain ⟨rfl, -⟩ := h
        refine ⟨x :: pre, post, by simp [hxs], ?_, hpost⟩
        intro y hy
        rw [burstCmp_nonpos_iff] at hc
        rcases List.mem_cons.mp hy with rfl | hy
        · omega
        · exact hpre y hy

theorem sortedProcesses_perm (ps : List Process) : (sortedProcesses ps).Perm ps :=
  jsSort_perm _ ps

theorem mem_sortedProcesses (ps : List Process) (p : Process) :
    p ∈ sortedProcesses ps ↔ p ∈ ps :=
  (sortedProcesses_perm ps).mem_iff

theorem sortedProcesses_pairwise (ps : List Process) :
    (sortedProcesses ps).Pairwise (fun a b => arrivalBurstCmp a b ≤ 0) := by
  apply jsSort_sorted_of_key
  · intro a b
    simp only [arrivalBurstCmp_nonpos_iff]
    omega
  · intro a b c
    simp only [arrivalBurstCmp_nonpos_iff]
    omega

theorem sortedProcesses_arrival (ps : List Process) :
    (sortedProcesses ps).Pairwise (fun a b => a.arrivalTime ≤ b.arrivalTime) := by
  refine (sortedProcesses_pairwise ps).imp ?_
  intro a b
  simp only [arrivalBurstCmp_nonpos_iff]
  omega

/-! ## One iteration of the loop -/

theorem loopBody_done {st : State} (hr : st.remainingProcesses = []) : loopBody st = st := by
  simp [loopBody, availableProcesses, hr]

theorem loopBody_idle {st : State} {first : Process} {rest : List Process}
    (hr : st.remainingProcesses = first :: rest) (ha : availableProcesses st = []) :
    loopBody st = { st with currentTime := first.arrivalTime } := by
  simp [loopBody, ha, hr]

theorem loopBody_select {st : State} {sel : Process} {t : List Process}
    (hs : jsSort burstCmp (availableProcesses st) = sel :: t) :
    loopBody st =
      { currentTime := numAdd st.currentTime sel.burstTime
        completedProcesses := st.completedProcesses ++
          [{ toProcess := sel
             completionTime := numAdd st.currentTime sel.burstTime
             turnaroundTime := numSub (numAdd st.currentTime sel.burstTime) sel.arrivalTime
             waitingTime :=
               numSub (numSub (numAdd st.currentTime sel.burstTime) sel.arrivalTime)
                 sel.burstTime }]
        remainingProcesses := st.remainingProcesses.filter (fun p => p.id != sel.id)
        ganttSchedule := st.ganttSchedule ++
          [{ toProcess := sel
             startTime := st.currentTime
             completionTime := numAdd st.currentTime sel.burstTime }] } := by
  have hne : (availableProcesses st).length ≠ 0 := by
    have := jsSort_length burstCmp (availableProcesses st)
    rw [hs] at this
    simp at this
    omega
  simp only [loopBody, hs, if_neg hne]

/-- Case analysis on one iteration: the loop is over, or it is an idle jump, or it selects the
first process of smallest burst time among the available ones. -/
theorem loopBody_cases (P : State → Prop) (st : State)
    (hdone : st.remainingProcesses = [] → P st)
    (hidle : ∀ first rest, st.remainingProcesses = first :: rest → availableProcesses st = [] →
      P { st with currentTime := first.arrivalTime })
    (hsel : ∀ sel pre post, availableProcesses st = pre ++ sel :: post →
      (∀ x ∈ pre, sel.burstTime < x.burstTime) → (∀ x ∈ post, sel.burstTime ≤ x.burstTime) →
      P { currentTime := numAdd st.currentTime sel.burstTime
          completedProcesses := st.completedProcesses ++
            [{ toProcess := sel
               completionTime := numAdd st.currentTime sel.burstTime
               turnaroundTime := numSub (numAdd st.currentTime sel.burstTime) sel.arrivalTime
               waitingTime :=
                 numSub (numSub (numAdd st.currentTime sel.burstTime) sel.arrivalTime)
                   sel.burstTime }]
          remainingProcesses := st.remainingProcesses.filter (fun p => p.id != sel.id)
          ganttSchedule := st.ganttSchedule ++
            [{ toProcess := sel
               startTime := st.currentTime
               completionTime := numAdd st.currentTime sel.burstTime }] }) :
    P (loopBody st) := by
  cases hs : jsSort burstCmp (availableProcesses st) with
  | nil =>
    have ha : availableProcesses st = [] := by
      have := jsSort_length burstCmp (availableProcesses st)
      rw [hs] at this
      exact List.length_eq_zero.mp this.symm
    cases hr : st.remainingProcesses with
    | nil =>
      rw [loopBody_done hr]
      exact hdone hr
    | cons first rest =>
      rw [loopBody_idle hr ha]
      exact hidle first rest hr ha
  | cons sel t =>
    rw [loopBody_select hs]
    obtain ⟨pre, post, h1, h2, h3⟩ := jsSort_burstCmp_head hs
    exact hsel sel pre post h1 h2 h3

theorem stateAfter_succ (ps : List Process) (k : Nat) :
    stateAfter ps (k + 1) = loopBody (stateAfter ps k) := by
  simp only [stateAfter, Function.iterate_succ_apply']

/-- Induction over the iterations of the loop. -/
theorem stateAfter_induction (P : State → Prop) (ps : List Process)
    (h0 : P (initialState ps)) (hstep : ∀ st, P st → P (loopBody st)) :
    ∀ k, P (stateAfter ps k) := by
  intro k
  induction k with
  | zero => exact h0
  | succ k ih =>
    rw [stateAfter_succ]
    exact hstep _ ih

theorem mem_availableProcesses {st : State} {p : Process} :
    p ∈ availableProcesses st ↔ p ∈ st.remainingProcesses ∧ p.arrivalTime ≤ st.currentTime := by
  simp [availableProcesses]

/-! ## Termination of the loop -/

theorem whileLoop_iterate (fuel : Nat) (st st' : State) (h : whileLoop fuel st = some st') :
    ∃ k, st' = loopBody^[k] st ∧ st'.remainingProcesses = [] := by
  induction fuel generalizing st with
  | zero =>
    simp only [whileLoop] at h
    split_ifs at h with hc
    simp only [Option.some.injEq] at h
    subst h
    exact ⟨0, rfl, List.length_eq_zero.mp (by omega)⟩
  | succ fuel ih =>
    simp only [whileLoop] at h
    split_ifs at h with hc
    · obtain ⟨k, hk, hr⟩ := ih _ h
      exact ⟨k + 1, by simpa only [Function.iterate_succ_apply] using hk, hr⟩
    · simp only [Option.some.injEq] at h
      subst h
      exact ⟨0, rfl, List.length_eq_zero.mp (by omega)⟩

/-- The fuel that the loop needs from `st`: two iterations for each remaining process, one less
when the next iteration is not an idle jump. -/
theorem whileLoop_total (fuel : Nat) (st : State)
    (h : 2 * st.remainingProcesses.length ≤
      fuel + (if (availableProcesses st).length = 0 then 0 else 1)) :
    ∃ st', whileLoop fuel st = some st' := by
  induction fuel generalizing st with
  | zero =>
    have hav : (availableProcesses st).length ≤ st.remainingProcesses.length :=
      List.length_filter_le _ _
    have h0 : st.remainingProcesses.length = 0 := by
      split_ifs at h <;> omega
    exact ⟨st, by simp [whileLoop, h0]⟩
  | succ fuel ih =>
    simp only [whileLoop]
    split_ifs with hc
    · apply ih
      refine loopBody_cases
        (fun s => 2 * s.remainingProcesses.length ≤
          fuel + (if (availableProcesses s).length = 0 then 0 else 1)) st ?_ ?_ ?_
      · intro hr
        rw [hr] at hc
        simp at hc
      · intro first rest hr ha
        have hmem : first ∈ availableProcesses { st with currentTime := first.arrivalTime } := by
          rw [mem_availableProcesses]
          simp [hr]
        have hpos : (availableProcesses { st with currentTime := first.arrivalTime }).length ≠ 0 := by
          intro h0
          rw [List.length_eq_zero.mp h0] at hmem
          simp at hmem
        rw [ha] at h
        simp only [List.length_nil, if_true] at h
        simp only [if_neg hpos]
        omega
      · intro sel pre post ha _ _
        have hsel : sel ∈ st.remainingProcesses := by
          have : sel ∈ availableProcesses st := by rw [ha]; simp
          exact (mem_availableProcesses.mp this).1
        have hlt : (st.remainingProcesses.filter (fun p => p.id != sel.id)).length
            < st.remainingProcesses.length := by
          apply List.length_filter_lt_length_iff_exists.mpr
          exact ⟨sel, hsel, by simp⟩
        have hne : (availableProcesses st).length ≠ 0 := by rw [ha]; simp
        simp only [if_neg hne] at h
        simp only
        split_ifs <;> omega
    · exact ⟨st, rfl⟩

/-! ## The loop invariant -/

theorem isMinArrival_head {first : Process} {rest : List Process}
    (h : (first :: rest).Pairwise (fun a b => a.arrivalTime ≤ b.arrivalTime)) :
    IsMinArrival first.arrivalTime (first :: rest) := by
  refine ⟨⟨first, by simp, rfl⟩, ?_⟩
  intro q hq
  rcases List.mem_cons.mp hq with rfl | hq
  · exact le_refl _
  · exact List.rel_of_pairwise_cons h hq

theorem IsMinArrival.congr {m : Int} {l l' : List Process} (h : IsMinArrival m l)
    (hmem : ∀ q, q ∈ l ↔ q ∈ l') : IsMinArrival m l' := by
  obtain ⟨⟨p, hp, hpm⟩, hle⟩ := h
  exact ⟨⟨p, (hmem p).mp hp, hpm⟩, fun q hq => hle q ((hmem q).mpr hq)⟩

theorem getElem?_push_cases {α : Type} {g : List α} {new s : α} {i : Nat}
    (h : (g ++ [new])[i]? = some s) :
    (g[i]? = some s ∧ (g ++ [new]).take i = g.take i) ∨
      (i = g.length ∧ s = new ∧ (g ++ [new]).take i = g) := by
  by_cases hi : i < g.length
  · left
    rw [List.getElem?_append_left hi] at h
    exact ⟨h, List.take_append_of_le_length (le_of_lt hi)⟩
  · right
    rw [List.getElem?_append_right (not_lt.mp hi)] at h
    have hz : i - g.length = 0 := by
      by_contra hne
      obtain ⟨j, hj⟩ := Nat.exists_eq_succ_of_ne_zero hne
      rw [hj] at h
      simp at h
    have hig : i = g.length := by omega
    rw [hz] at h
    simp only [List.getElem?_cons_zero, Option.some.injEq] at h
    subst hig
    exact ⟨rfl, h.symm, by simp⟩

theorem Inv.remaining_sorted {ps : List Process} {st : State} (h : Inv ps st) :
    st.remainingProcesses.Pairwise (fun a b => a.arrivalTime ≤ b.arrivalTime) := by
  rw [h.remaining_eq]
  exact (sortedProcesses_arrival ps).filter _

theorem Inv.mem_remaining {ps : List Process} {st : State} (h : Inv ps st) (q : Process) :
    q ∈ st.remainingProcesses ↔
      q ∈ ps.filter (fun p => decide (p.id ∉ st.ganttSchedule.map (fun x => x.id))) := by
  rw [h.remaining_eq]
  simp only [List.mem_filter, mem_sortedProcesses]

theorem inv_initialState (ps : List Process) : Inv ps (initialState ps) where
  remaining_eq := by simp [initialState]
  ids_nodup := by simp [initialState]
  slot_mem := by simp [initialState]
  completed_eq := by simp [initialState]
  time := Or.inl (by simp [initialState, lastCompletion])
  slots := by simp [initialState]

theorem inv_loopBody {ps : List Process} {st : State} (h : Inv ps st) : Inv ps (loopBody st) := by
  refine loopBody_cases (Inv ps) st (fun _ => h) ?_ ?_
  · -- idle jump
    intro first rest hr ha
    have hfirst : st.currentTime < first.arrivalTime := by
      by_contra hc
      have : first ∈ availableProcesses st :=
        mem_availableProcesses.mpr ⟨by simp [hr], not_lt.mp hc⟩
      rw [ha] at this
      simp at this
    have hmin : IsMinArrival first.arrivalTime st.remainingProcesses := by
      have := h.remaining_sorted
      rw [hr] at this ⊢
      exact isMinArrival_head this
    have hlast : lastCompletion st.ganttSchedule ≤ st.currentTime := by
      rcases h.time with ht | ⟨m, -, ht⟩
      · exact le_of_eq ht.symm
      · rw [ht]
        exact le_max_left _ _
    exact
      { remaining_eq := h.remaining_eq
        ids_nodup := h.ids_nodup
        slot_mem := h.slot_mem
        completed_eq := h.completed_eq
        time := Or.inr ⟨first.arrivalTime, hmin, by
          show first.arrivalTime = max (lastCompletion st.ganttSchedule) first.arrivalTime
          rw [max_eq_right (by omega)]⟩
        slots := h.slots }
  · -- selection
    intro sel pre post ha hpre hpost
    have hsel_av : sel ∈ availableProcesses st := by rw [ha]; simp
    have hsel_rem : sel ∈ st.remainingProcesses := (mem_availableProcesses.mp hsel_av).1
    have hsel_arr : sel.arrivalTime ≤ st.currentTime := (mem_availableProcesses.mp hsel_av).2
    have hsel_f := (h.mem_remaining sel).mp hsel_rem
    simp only [List.mem_filter, decide_eq_true_eq] at hsel_f
    obtain ⟨hsel_ps, hsel_id⟩ := hsel_f
    have hshort : ∀ q ∈ availableProcesses st, sel.burstTime ≤ q.burstTime := by
      intro q hq
      rw [ha] at hq
      rcases List.mem_append.mp hq with hq | hq
      · exact le_of_lt (hpre q hq)
      · rcases List.mem_cons.mp hq with rfl | hq
        · exact le_refl _
        · exact hpost q hq
    have hnew : SlotOK ps st.ganttSchedule
        { toProcess := sel, startTime := st.currentTime,
          completionTime := numAdd st.currentTime sel.burstTime } :=
      { arrived := hsel_arr
        completion := rfl
        shortest := by
          intro q hq hqid hqarr
          apply hshort
          apply mem_availableProcesses.mpr
          refine ⟨?_, hqarr⟩
          rw [h.mem_remaining]
          simp only [List.mem_filter, decide_eq_true_eq]
          exact ⟨hq, hqid⟩
        start := by
          rcases h.time with ht | ⟨m, hm, ht⟩
          · cases hr : st.remainingProcesses with
            | nil => rw [hr] at hsel_rem; simp at hsel_rem
            | cons first rest =>
              have hsorted := h.remaining_sorted
              rw [hr] at hsorted
              have hmin := isMinArrival_head hsorted
              rw [← hr] at hmin
              refine ⟨first.arrivalTime, hmin.congr (h.mem_remaining), ?_⟩
              have := hmin.2 sel hsel_rem
              show st.currentTime = max (lastCompletion st.ganttSchedule) first.arrivalTime
              rw [max_eq_left (by omega)]
              exact ht
          · exact ⟨m, hm.congr (h.mem_remaining), ht⟩ }
    exact
      { remaining_eq := by
          show st.remainingProcesses.filter (fun p => p.id != sel.id) = _
          rw [h.remaining_eq, List.filter_filter]
          apply List.filter_congr
          intro x _
          simp only [List.map_append, List.map_cons, List.map_nil, List.mem_append,
            List.mem_singleton, not_or, Bool.decide_and, decide_not]
          rw [Bool.and_comm]
          congr 1
        ids_nodup := by
          show ((st.ganttSchedule ++ _).map (fun x => x.id)).Nodup
          simp only [List.map_append, List.map_cons, List.map_nil]
          rw [List.nodup_append]
          refine ⟨h.ids_nodup, by simp, ?_⟩
          intro a ha1 ha2
          simp only [List.mem_singleton] at ha2
          subst ha2
          exact hsel_id ha1
        slot_mem := by
          intro s hs
          rcases List.mem_append.mp hs with hs | hs
          · exact h.slot_mem s hs
          · simp only [List.mem_singleton] at hs
            subst hs
            exact hsel_ps
        completed_eq := by
          show (st.completedProcesses ++ _).map _ = (st.ganttSchedule ++ _).map _
          simp only [List.map_append, h.completed_eq, List.map_cons, List.map_nil]
        time := Or.inl (by
          show numAdd st.currentTime sel.burstTime = lastCompletion (st.ganttSchedule ++ _)
          simp [lastCompletion])
        slots := by
          intro i s hs
          rcases getElem?_push_cases hs with ⟨h1, h2⟩ | ⟨-, h1, h2⟩
          · rw [h2]
            exact h.slots i s h1
          · rw [h2, h1]
            exact hnew }

theorem inv_stateAfter (ps : List Process) (k : Nat) : Inv ps (stateAfter ps k) :=
  stateAfter_induction (Inv ps) ps (inv_initialState ps) (fun _ h => inv_loopBody h) k

/-- A call on a non-empty list reaches `renderResults`, with the lists of the state in which the
loop condition fails. -/
theorem calculateSchedule_rendered (ps : List Process) (hne : ps ≠ []) :
    ∃ k, (stateAfter ps k).remainingProcesses = [] ∧
      calculateSchedule ps =
        .rendered (jsSort (originalOrderCmp ps) (stateAfter ps k).completedProcesses)
          (stateAfter ps k).ganttSchedule := by
  have hlen : ps.length ≠ 0 := fun h => hne (List.length_eq_zero.mp h)
  obtain ⟨st', hst'⟩ := whileLoop_total (2 * ps.length) (initialState ps) (by
    have : (initialState ps).remainingProcesses.length = ps.length := by
      simp [initialState, sortedProcesses, jsSort_length]
    rw [this]
    omega)
  obtain ⟨k, hk, hr⟩ := whileLoop_iterate _ _ _ hst'
  refine ⟨k, ?_, ?_⟩
  · rw [stateAfter, ← hk]
    exact hr
  · simp only [calculateSchedule, if_neg hlen, hst']
    rw [stateAfter, ← hk]

/-- When the loop is over, every input id has a slot. -/
theorem final_ids_mem (ps : List Process) (k : Nat)
    (hr : (stateAfter ps k).remainingProcesses = []) :
    ∀ p ∈ ps, p.id ∈ (stateAfter ps k).ganttSchedule.map (fun x => x.id) := by
  intro p hp
  have h := (inv_stateAfter ps k).remaining_eq
  rw [hr] at h
  have h2 := List.filter_eq_nil_iff.mp h.symm p ((mem_sortedProcesses ps p).mpr hp)
  simpa using h2

/-- When the loop is over and the input ids are distinct, the ids of the timeline are a
permutation of the input ids. -/
theorem final_ids_perm (ps : List Process) (k : Nat)
    (hid : (ps.map (fun p => p.id)).Nodup)
    (hr : (stateAfter ps k).remainingProcesses = []) :
    ((stateAfter ps k).ganttSchedule.map (fun x => x.id)).Perm (ps.map (fun p => p.id)) := by
  have hinv := inv_stateAfter ps k
  rw [List.perm_ext_iff_of_nodup hinv.ids_nodup hid]
  intro a
  constructor
  · intro ha
    obtain ⟨s, hs, rfl⟩ := List.mem_map.mp ha
    exact List.mem_map.mpr ⟨s.toProcess, hinv.slot_mem s hs, rfl⟩
  · intro ha
    obtain ⟨p, hp, rfl⟩ := List.mem_map.mp ha
    exact final_ids_mem ps k hr p hp

theorem IsMinArrival.unique {m t : Int} {l : List Process} (hm : IsMinArrival m l)
    (ht : IsMinArrival t l) : m = t := by
  obtain ⟨⟨p, hp, hpm⟩, hle⟩ := hm
  obtain ⟨⟨q, hq, hqt⟩, hle'⟩ := ht
  have h1 := hle q hq
  have h2 := hle' p hp
  omega

/-! ## Runs within the exact range of doubles -/

theorem totalBurst_cons (x : Process) (xs : List Process) :
    totalBurst (x :: xs) = x.burstTime + totalBurst xs := by
  simp [totalBurst]

theorem totalBurst_nonneg {l : List Process} (hnn : ∀ p ∈ l, 0 ≤ p.burstTime) :
    0 ≤ totalBurst l := by
  induction l with
  | nil => simp [totalBurst]
  | cons x xs ih =>
    rw [totalBurst_cons]
    have h1 := hnn x (by simp)
    have h2 := ih (fun p hp => hnn p (List.mem_cons_of_mem _ hp))
    omega

theorem totalBurst_filter_le {l : List Process} (f : Process → Bool)
    (hnn : ∀ p ∈ l, 0 ≤ p.burstTime) : totalBurst (l.filter f) ≤ totalBurst l := by
  induction l with
  | nil => simp [totalBurst]
  | cons x xs ih =>
    have h1 := hnn x (by simp)
    have h2 := ih (fun p hp => hnn p (List.mem_cons_of_mem _ hp))
    by_cases hf : f x = true
    · rw [List.filter_cons_of_pos hf, totalBurst_cons, totalBurst_cons]
      omega
    · rw [List.filter_cons_of_neg hf, totalBurst_cons]
      omega

theorem totalBurst_filter_remove {l : List Process} {sel : Process}
    (hnn : ∀ p ∈ l, 0 ≤ p.burstTime) (hsel : sel ∈ l) :
    totalBurst (l.filter (fun p => p.id != sel.id)) + sel.burstTime ≤ totalBurst l := by
  induction l with
  | nil => simp at hsel
  | cons x xs ih =>
    have h1 := hnn x (by simp)
    have hnn' : ∀ p ∈ xs, 0 ≤ p.burstTime := fun p hp => hnn p (List.mem_cons_of_mem _ hp)
    rw [totalBurst_cons]
    by_cases hf : (x.id != sel.id) = true
    · have e : (x :: xs).filter (fun p => p.id != sel.id)
          = x :: xs.filter (fun p => p.id != sel.id) := by
        simp only [List.filter, hf]
      rw [e, totalBurst_cons]
      rcases List.mem_cons.mp hsel with hx | hmem
      · rw [hx] at hf
        simp at hf
      · have := ih hnn' hmem
        omega
    · have hf' : (x.id != sel.id) = false := by simpa using hf
      have e : (x :: xs).filter (fun p => p.id != sel.id)
          = xs.filter (fun p => p.id != sel.id) := by
        simp only [List.filter, hf']
      rw [e]
      rcases List.mem_cons.mp hsel with hx | hmem
      · have := totalBurst_filter_le (fun p => p.id != sel.id) hnn'
        rw [hx] at this ⊢
        omega
      · have := ih hnn' hmem
        omega

theorem totalBurst_sortedProcesses (ps : List Process) :
    totalBurst (sortedProcesses ps) = totalBurst ps :=
  ((sortedProcesses_perm ps).map _).sum_eq

/-- With positive burst times and an input within the exact range, every addition and
subtraction of the loop is exact. -/
theorem invExact_stateAfter (ps : List Process) (hb : ∀ p ∈ ps, 0 < p.burstTime)
    (hrange : WithinExactRange ps) (k : Nat) : InvExact (stateAfter ps k) := by
  have hsorted_nn : ∀ p ∈ sortedProcesses ps, 0 ≤ p.burstTime := fun p hp =>
    le_of_lt (hb p ((mem_sortedProcesses ps p).mp hp))
  have key : Inv ps (stateAfter ps k) ∧ InvExact (stateAfter ps k) := by
    refine stateAfter_induction (fun st => Inv ps st ∧ InvExact st) ps ⟨inv_initialState ps, ?_⟩ ?_ k
    · refine
        { time_nonneg := le_refl _
          time_bound := ?_
          slots_exact := by simp [initialState]
          completed_exact := by simp [initialState] }
      show (0 : Int) + totalBurst (sortedProcesses ps) ≤ 2 ^ 53
      rw [totalBurst_sortedProcesses]
      cases ps with
      | nil => simp [totalBurst]
      | cons p rest =>
        have := hrange p (by simp)
        have hmax := le_max_left 0 p.arrivalTime
        omega
    · rintro st ⟨hinv, hex⟩
      refine ⟨inv_loopBody hinv, ?_⟩
      have hrem_ps : ∀ p ∈ st.remainingProcesses, p ∈ ps := fun p hp =>
        (List.mem_filter.mp ((hinv.mem_remaining p).mp hp)).1
      have hrem_nn : ∀ p ∈ st.remainingProcesses, 0 ≤ p.burstTime := fun p hp =>
        le_of_lt (hb p (hrem_ps p hp))
      refine loopBody_cases InvExact st (fun _ => hex) ?_ ?_
      · intro first rest hr ha
        have hfirst_mem : first ∈ st.remainingProcesses := by simp [hr]
        have hfirst : st.currentTime < first.arrivalTime := by
          by_contra hc
          have : first ∈ availableProcesses st :=
            mem_availableProcesses.mpr ⟨hfirst_mem, not_lt.mp hc⟩
          rw [ha] at this
          simp at this
        have hle : totalBurst st.remainingProcesses ≤ totalBurst ps := by
          rw [hinv.remaining_eq, ← totalBurst_sortedProcesses ps]
          exact totalBurst_filter_le _ hsorted_nn
        have hr1 := hrange first (hrem_ps first hfirst_mem)
        have hmax := le_max_right 0 first.arrivalTime
        have h0 := hex.time_nonneg
        exact
          { time_nonneg := by show 0 ≤ first.arrivalTime; omega
            time_bound := by
              show first.arrivalTime + totalBurst st.remainingProcesses ≤ 2 ^ 53
              omega
            slots_exact := hex.slots_exact
            completed_exact := hex.completed_exact }
      · intro sel pre post ha _ _
        have hsel_av : sel ∈ availableProcesses st := by rw [ha]; simp
        have hsel_rem : sel ∈ st.remainingProcesses := (mem_availableProcesses.mp hsel_av).1
        have hsel_arr : sel.arrivalTime ≤ st.currentTime := (mem_availableProcesses.mp hsel_av).2
        have hpos : 0 < sel.burstTime := hb sel (hrem_ps sel hsel_rem)
        have hrm := totalBurst_filter_remove hrem_nn hsel_rem
        have hfl : 0 ≤ totalBurst (st.remainingProcesses.filter (fun p => p.id != sel.id)) :=
          totalBurst_nonneg (fun p hp => hrem_nn p (List.mem_filter.mp hp).1)
        have h0 := hex.time_nonneg
        have hbd := hex.time_bound
        have hadd : numAdd st.currentTime sel.burstTime = st.currentTime + sel.burstTime :=
          numAdd_exact (by omega) (by omega)
        exact
          { time_nonneg := by
              show 0 ≤ numAdd st.currentTime sel.burstTime
              rw [hadd]
              omega
            time_bound := by
              show numAdd st.currentTime sel.burstTime +
                totalBurst (st.remainingProcesses.filter (fun p => p.id != sel.id)) ≤ 2 ^ 53
              rw [hadd]
              omega
            slots_exact := by
              intro s hs
              rcases List.mem_append.mp hs with hs | hs
              · exact hex.slots_exact s hs
              · simp only [List.mem_singleton] at hs
                subst hs
                show st.currentTime < numAdd st.currentTime sel.burstTime
                rw [hadd]
                omega
            completed_exact := by
              intro c hc harr
              rcases List.mem_append.mp hc with hc | hc
              · exact hex.completed_exact c hc harr
              · simp only [List.mem_singleton] at hc
                subst hc
                have harr' : 0 ≤ sel.arrivalTime := harr
                have hsub : numSub (st.currentTime + sel.burstTime) sel.arrivalTime
                    = st.currentTime + sel.burstTime - sel.arrivalTime :=
                  numSub_exact (by omega) (by omega)
                have hsub2 : numSub (st.currentTime + sel.burstTime - sel.arrivalTime)
                    sel.burstTime
                    = st.currentTime + sel.burstTime - sel.arrivalTime - sel.burstTime :=
                  numSub_exact (by omega) (by omega)
                show 0 ≤ numSub (numSub (numAdd st.currentTime sel.burstTime) sel.arrivalTime)
                    sel.burstTime ∧
                  sel.burstTime ≤ numSub (numAdd st.currentTime sel.burstTime) sel.arrivalTime
                rw [hadd, hsub, hsub2]
                omega }
  exact key.2

/-! ## Counting the iterations -/

theorem filter_ne_id_length {l : List Process} {sel : Process}
    (hnd : (l.map (fun p => p.id)).Nodup) (hsel : sel ∈ l) :
    (l.filter (fun p => p.id != sel.id)).length + 1 = l.length := by
  induction l with
  | nil => simp at hsel
  | cons x xs ih =>
    simp only [List.map_cons, List.nodup_cons] at hnd
    obtain ⟨hx, hnd⟩ := hnd
    rcases List.mem_cons.mp hsel with rfl | hmem
    · have hall : xs.filter (fun p => p.id != sel.id) = xs := by
        rw [List.filter_eq_self]
        intro y hy
        have : y.id ≠ sel.id := fun h => hx (h ▸ List.mem_map.mpr ⟨y, hy, rfl⟩)
        simpa using this
      simp [List.filter, hall]
    · have hne : x.id ≠ sel.id := fun h => hx (h ▸ List.mem_map.mpr ⟨sel, hmem, rfl⟩)
      have hkeep : (x.id != sel.id) = true := by simpa using hne
      have := ih hnd hmem
      simp only [List.filter, hkeep, List.length_cons]
      omega

theorem filter_ids_nodup {l : List Process} (f : Process → Bool)
    (hnd : (l.map (fun p => p.id)).Nodup) : ((l.filter f).map (fun p => p.id)).Nodup :=
  hnd.sublist ((List.filter_sublist l).map _)

/-- The iterations of the loop from a state whose remaining processes have distinct ids, given
enough fuel: one selection for each remaining process, at most as many idle jumps, and a selection
right after every idle jump. -/
theorem iterationKinds_spec (fuel : Nat) (st : State)
    (hnd : (st.remainingProcesses.map (fun p => p.id)).Nodup)
    (h : 2 * st.remainingProcesses.length ≤
      fuel + (if (availableProcesses st).length = 0 then 0 else 1)) :
    (iterationKinds fuel st).count .selecting = st.remainingProcesses.length ∧
    (iterationKinds fuel st).count .idleJump +
        (if (availableProcesses st).length = 0 then 0 else 1) ≤ st.remainingProcesses.length ∧
    (∀ i, (iterationKinds fuel st)[i]? = some .idleJump →
      (iterationKinds fuel st)[i + 1]? = some .selecting) ∧
    ((availableProcesses st).length ≠ 0 → (iterationKinds fuel st)[0]? = some .selecting) := by
  have hav : (availableProcesses st).length ≤ st.remainingProcesses.length :=
    List.length_filter_le _ _
  induction fuel generalizing st with
  | zero =>
    have h0 : st.remainingProcesses.length = 0 := by
      split_ifs at h <;> omega
    have ha0 : (availableProcesses st).length = 0 := by omega
    simp [iterationKinds, h0, ha0]
  | succ fuel ih =>
    by_cases hc : st.remainingProcesses.length > 0
    · simp only [iterationKinds, if_pos hc]
      refine loopBody_cases
        (fun s =>
          (iterationKind st :: iterationKinds fuel s).count .selecting
            = st.remainingProcesses.length ∧
          (iterationKind st :: iterationKinds fuel s).count .idleJump +
            (if (availableProcesses st).length = 0 then 0 else 1)
              ≤ st.remainingProcesses.length ∧
          (∀ i, (iterationKind st :: iterationKinds fuel s)[i]? = some .idleJump →
            (iterationKind st :: iterationKinds fuel s)[i + 1]? = some .selecting) ∧
          ((availableProcesses st).length ≠ 0 →
            (iterationKind st :: iterationKinds fuel s)[0]? = some .selecting)) st ?_ ?_ ?_
      · intro hr
        rw [hr] at hc
        simp at hc
      · intro first rest hr ha
        have hmem : first ∈ availableProcesses { st with currentTime := first.arrivalTime } := by
          rw [mem_availableProcesses]
          simp [hr]
        have hpos : (availableProcesses { st with currentTime := first.arrivalTime }).length ≠ 0 := by
          intro h0
          rw [List.length_eq_zero.mp h0] at hmem
          simp at hmem
        have hk : iterationKind st = .idleJump := by simp [iterationKind, ha]
        rw [ha] at h
        simp only [List.length_nil, if_true] at h
        obtain ⟨h1, h2, h3, h4⟩ := ih { st with currentTime := first.arrivalTime } hnd
          (by simp only [if_neg hpos]; omega) (List.length_filter_le _ _)
        simp only [if_neg hpos] at h2
        rw [hk, ha]
        refine ⟨?_, ?_, ?_, ?_⟩
        · rw [List.count_cons_of_ne (by decide)]
          exact h1
        · rw [List.count_cons_self]
          simp only [List.length_nil, if_true]
          omega
        · intro i hi
          cases i with
          | zero => simpa using h4 hpos
          | succ i =>
            simp only [List.getElem?_cons_succ] at hi ⊢
            exact h3 i hi
        · intro hne
          simp at hne
      · intro sel pre post ha _ _
        have hsel : sel ∈ st.remainingProcesses := by
          have : sel ∈ availableProcesses st := by rw [ha]; simp
          exact (mem_availableProcesses.mp this).1
        have hlen := filter_ne_id_length hnd hsel
        have hne : (availableProcesses st).length ≠ 0 := by rw [ha]; simp
        have hk : iterationKind st = .selecting := by simp [iterationKind, hne]
        simp only [if_neg hne] at h
        obtain ⟨h1, h2, h3, -⟩ := ih
          { currentTime := numAdd st.currentTime sel.burstTime
            completedProcesses := st.completedProcesses ++
              [{ toProcess := sel
                 completionTime := numAdd st.currentTime sel.burstTime
                 turnaroundTime := numSub (numAdd st.currentTime sel.burstTime) sel.arrivalTime
                 waitingTime :=
                   numSub (numSub (numAdd st.currentTime sel.burstTime) sel.arrivalTime)
                     sel.burstTime }]
            remainingProcesses := st.remainingProcesses.filter (fun p => p.id != sel.id)
            ganttSchedule := st.ganttSchedule ++
              [{ toProcess := sel
                 startTime := st.currentTime
                 completionTime := numAdd st.currentTime sel.burstTime }] }
          (filter_ids_nodup _ hnd) (by simp only; split_ifs <;> omega)
          (List.length_filter_le _ _)
        simp only at h1 h2
        rw [hk]
        simp only [if_neg hne]
        refine ⟨?_, ?_, ?_, ?_⟩
        · rw [List.count_cons_self]
          omega
        · rw [List.count_cons_of_ne (by decide)]
          split_ifs at h2 <;> omega
        · intro i hi
          cases i with
          | zero => simp at hi
          | succ i =>
            simp only [List.getElem?_cons_succ] at hi ⊢
            exact h3 i hi
        · intro _
          simp
    · have h0 : st.remainingProcesses.length = 0 := by omega
      have ha0 : (availableProcesses st).length = 0 := by omega
      simp [iterationKinds, h0, ha0]

/-! ## Order of selection among equal burst times -/

theorem pair_sublist_of_getElem? {α : Type} {l : List α} {p q : α} {i j : Nat}
    (hp : l[i]? = some p) (hq : l[j]? = some q) (hij : i < j) : [p, q].Sublist l := by
  induction l generalizing i j with
  | nil => simp at hp
  | cons x xs ih =>
    cases j with
    | zero => omega
    | succ j =>
      simp only [List.getElem?_cons_succ] at hq
      cases i with
      | zero =>
        simp only [List.getElem?_cons_zero, Option.some.injEq] at hp
        subst hp
        exact List.Sublist.cons₂ _ (List.singleton_sublist.mpr (List.getElem?_mem hq))
      | succ i =>
        simp only [List.getElem?_cons_succ] at hp
        exact List.Sublist.cons _ (ih hp hq (by omega))

theorem pair_sublist_of_pairwise {α : Type} {r : α → α → Prop} {l : List α} {p q : α}
    (hl : l.Pairwise r) (hp : p ∈ l) (hq : q ∈ l) (hne : p ≠ q) (hr : ¬ r q p) :
    [p, q].Sublist l := by
  induction l with
  | nil => simp at hp
  | cons x xs ih =>
    obtain ⟨hx, hxs⟩ := List.pairwise_cons.mp hl
    rcases List.mem_cons.mp hp with hpx | hp'
    · rcases List.mem_cons.mp hq with hqx | hq'
      · exact absurd (hpx.trans hqx.symm) hne
      · rw [hpx]
        exact List.Sublist.cons₂ _ (List.singleton_sublist.mpr hq')
    · rcases List.mem_cons.mp hq with hqx | hq'
      · rw [hqx] at hr
        exact absurd (hx p hp') hr
      · exact List.Sublist.cons _ (ih hxs hp' hq')

theorem mem_post_of_pair_sublist {α : Type} {pre post : List α} {p q : α}
    (h : [p, q].Sublist (pre ++ q :: post)) (hp : p ∉ pre) (hne : p ≠ q) : q ∈ post := by
  induction pre with
  | nil =>
    simp only [List.nil_append] at h
    cases h with
    | cons _ h => exact h.subset (by simp)
    | cons₂ _ h => exact absurd rfl hne
  | cons x pre ih =>
    simp only [List.cons_append] at h
    cases h with
    | cons _ h => exact ih h (fun hmem => hp (List.mem_cons_of_mem _ hmem))
    | cons₂ _ h => exact absurd (List.mem_cons_self _ _) hp

theorem pair_sublist_filter {α : Type} {l : List α} {p q : α} (f : α → Bool)
    (h : [p, q].Sublist l) (hp : f p = true) (hq : f q = true) :
    [p, q].Sublist (l.filter f) := by
  have h2 := h.filter f
  have e : [p, q].filter f = [p, q] := by
    rw [List.filter_eq_self]
    intro a ha
    simp only [List.mem_cons, List.mem_singleton, List.not_mem_nil, or_false] at ha
    rcases ha with rfl | rfl <;> assumption
  rwa [e] at h2

/-- The two processes of the tie-break rule are in that order in `sortedProcesses`. -/
theorem tie_sorted_order (ps : List Process)
    (p q : Process) (i j : Nat) (hp : ps[i]? = some p) (hq : ps[j]? = some q)
    (hburst : p.burstTime = q.burstTime)
    (hord : p.arrivalTime < q.arrivalTime ∨ (p.arrivalTime = q.arrivalTime ∧ i < j)) :
    [p, q].Sublist (sortedProcesses ps) := by
  rcases hord with hlt | ⟨heq, hij⟩
  · refine pair_sublist_of_pairwise (sortedProcesses_pairwise ps)
      ((mem_sortedProcesses ps p).mpr (List.getElem?_mem hp))
      ((mem_sortedProcesses ps q).mpr (List.getElem?_mem hq)) ?_ ?_
    · intro h
      rw [h] at hlt
      exact lt_irrefl _ hlt
    · rw [arrivalBurstCmp_nonpos_iff]
      omega
  · refine jsSort_stable arrivalBurstCmp ?_ (pair_sublist_of_getElem? hp hq hij)
    simp only [List.pairwise_cons, List.mem_singleton, forall_eq, List.not_mem_nil,
      IsEmpty.forall_iff, implies_true, List.Pairwise.nil, and_true,
      arrivalBurstCmp_nonpos_iff]
    omega

/-- With distinct ids, of two input processes that have the same burst time and are in this order
in `sortedProcesses`, the first one not arriving later, the first one gets the earlier slot. -/
theorem tie_placed_before (ps : List Process) (hid : (ps.map (fun p => p.id)).Nodup)
    (p q : Process) (hsub : [p, q].Sublist (sortedProcesses ps))
    (hburst : p.burstTime = q.burstTime) (harr : p.arrivalTime ≤ q.arrivalTime) (k : Nat)
    (hr : (stateAfter ps k).remainingProcesses = []) :
    PlacedBefore (stateAfter ps k).ganttSchedule p q := by
  have hnd : (sortedProcesses ps).Nodup :=
    ((sortedProcesses_perm ps).nodup_iff).mpr (List.Nodup.of_map _ hid)
  have hpq : p ≠ q := by
    intro h
    subst h
    have := hnd.sublist hsub
    simp at this
  have hinj := List.inj_on_of_nodup_map hid
  have key : ∀ n, Inv ps (stateAfter ps n) ∧
      ((p ∈ (stateAfter ps n).remainingProcesses ∧ q ∈ (stateAfter ps n).remainingProcesses) ∨
       (q ∈ (stateAfter ps n).remainingProcesses ∧
          ∃ i : Nat, ((stateAfter ps n).ganttSchedule[i]?).map GanttSlot.toProcess = some p) ∨
       PlacedBefore (stateAfter ps n).ganttSchedule p q) := by
    refine stateAfter_induction
      (fun st => Inv ps st ∧
        ((p ∈ st.remainingProcesses ∧ q ∈ st.remainingProcesses) ∨
         (q ∈ st.remainingProcesses ∧
            ∃ i : Nat, (st.ganttSchedule[i]?).map GanttSlot.toProcess = some p) ∨
         PlacedBefore st.ganttSchedule p q)) ps ?_ ?_
    · refine ⟨inv_initialState ps, Or.inl ⟨?_, ?_⟩⟩
      · exact hsub.subset (by simp)
      · exact hsub.subset (by simp)
    · rintro st ⟨hinv, hJ⟩
      refine ⟨inv_loopBody hinv, ?_⟩
      refine loopBody_cases
        (fun s =>
          (p ∈ s.remainingProcesses ∧ q ∈ s.remainingProcesses) ∨
          (q ∈ s.remainingProcesses ∧
            ∃ i : Nat, (s.ganttSchedule[i]?).map GanttSlot.toProcess = some p) ∨
          PlacedBefore s.ganttSchedule p q) st (fun _ => hJ) (fun _ _ _ _ => hJ) ?_
      intro sel pre post ha hpre _
      have hsel_av : sel ∈ availableProcesses st := by rw [ha]; simp
      have hsel_rem : sel ∈ st.remainingProcesses := (mem_availableProcesses.mp hsel_av).1
      have hsel_ps : sel ∈ ps := by
        have := (hinv.mem_remaining sel).mp hsel_rem
        exact (List.mem_filter.mp this).1
      have hkeep : ∀ x ∈ st.remainingProcesses, x ≠ sel →
          x ∈ st.remainingProcesses.filter (fun y => y.id != sel.id) := by
        intro x hx hxs
        have hx_ps : x ∈ ps := (List.mem_filter.mp ((hinv.mem_remaining x).mp hx)).1
        have : x.id ≠ sel.id := fun h => hxs (hinj hx_ps hsel_ps h)
        exact List.mem_filter.mpr ⟨hx, by simpa using this⟩
      have hold : ∀ (i : Nat) (x : Process), (st.ganttSchedule[i]?).map GanttSlot.toProcess = some x →
          i < st.ganttSchedule.length ∧
          ∀ new, ((st.ganttSchedule ++ [new])[i]?).map GanttSlot.toProcess = some x := by
        intro i x hx
        have hi : i < st.ganttSchedule.length := by
          by_contra hc
          rw [List.getElem?_eq_none (not_lt.mp hc)] at hx
          simp at hx
        exact ⟨hi, fun new => by rw [List.getElem?_append_left hi]; exact hx⟩
      have hlast : ∀ new : GanttSlot,
          ((st.ganttSchedule ++ [new])[st.ganttSchedule.length]?).map GanttSlot.toProcess
            = some new.toProcess := by
        intro new
        rw [List.getElem?_append_right (le_refl _)]
        simp
      rcases hJ with ⟨hp_rem, hq_rem⟩ | ⟨hq_rem, i, hi⟩ | ⟨i, j, hij, hi, hj⟩
      · by_cases hsq : sel = q
        · exfalso
          subst hsq
          have hp_av : p ∈ availableProcesses st :=
            mem_availableProcesses.mpr ⟨hp_rem, le_trans harr (mem_availableProcesses.mp hsel_av).2⟩
          have hsub_rem : [p, sel].Sublist st.remainingProcesses := by
            rw [hinv.remaining_eq]
            have h1 := (hinv.mem_remaining p).mp hp_rem
            have h2 := (hinv.mem_remaining sel).mp hsel_rem
            exact pair_sublist_filter _ hsub (List.mem_filter.mp h1).2 (List.mem_filter.mp h2).2
          have hsub_av : [p, sel].Sublist (availableProcesses st) := by
            exact pair_sublist_filter _ hsub_rem
              (by simpa using (mem_availableProcesses.mp hp_av).2)
              (by simpa using (mem_availableProcesses.mp hsel_av).2)
          have hav_nd : (availableProcesses st).Nodup := by
            refine hnd.sublist ?_
            refine (List.filter_sublist _).trans ?_
            rw [hinv.remaining_eq]
            exact List.filter_sublist _
          rw [ha] at hsub_av hav_nd
          have hp_pre : p ∉ pre := by
            intro hmem
            have := hpre p hmem
            omega
          have hmem_post := mem_post_of_pair_sublist hsub_av hp_pre hpq
          rw [List.nodup_middle, List.nodup_cons] at hav_nd
          exact hav_nd.1 (List.mem_append_right _ hmem_post)
        · by_cases hsp : sel = p
          · subst hsp
            right; left
            refine ⟨hkeep q hq_rem (fun h => hsq h.symm), st.ganttSchedule.length, ?_⟩
            exact hlast _
          · left
            exact ⟨hkeep p hp_rem (fun h => hsp h.symm), hkeep q hq_rem (fun h => hsq h.symm)⟩
      · obtain ⟨hlt, hpers⟩ := hold i p hi
        by_cases hsq : sel = q
        · subst hsq
          right; right
          exact ⟨i, st.ganttSchedule.length, hlt, hpers _, hlast _⟩
        · right; left
          exact ⟨hkeep q hq_rem (fun h => hsq h.symm), i, hpers _⟩
      · right; right
        exact ⟨i, j, hij, (hold i p hi).2 _, (hold j q hj).2 _⟩
  rcases (key k).2 with ⟨hp_rem, -⟩ | ⟨hq_rem, -⟩ | h
  · rw [hr] at hp_rem
    simp at hp_rem
  · rw [hr] at hq_rem
    simp at hq_rem
  · exact h

/-! ## The final sort into submission order -/

theorem findIndex_nonneg_of_mem {ps : List Process} {a : Int}
    (h : a ∈ ps.map (fun p => p.id)) : 0 ≤ findIndex (fun p => p.id == a) ps := by
  induction ps with
  | nil => simp at h
  | cons p ps ih =>
    simp only [findIndex]
    by_cases hp : p.id = a
    · simp [hp]
    · have hmem : a ∈ ps.map (fun p => p.id) := by
        simp only [List.map_cons, List.mem_cons] at h
        rcases h with h | h
        · exact absurd h.symm hp
        · exact h
      have := ih hmem
      simp only [beq_iff_eq, hp, if_false]
      rw [if_neg (by omega)]
      omega

theorem findIndex_cons_of_ne {ps : List Process} {p : Process} {a : Int}
    (h : a ∈ ps.map (fun p => p.id)) (hp : p.id ≠ a) :
    findIndex (fun p => p.id == a) (p :: ps) = findIndex (fun p => p.id == a) ps + 1 := by
  have := findIndex_nonneg_of_mem h
  simp only [findIndex, beq_iff_eq, hp, if_false]
  rw [if_neg (by omega)]

/-- The element at the index that `findIndex` returns has the id that was looked up. -/
theorem findIndex_getElem? {ps : List Process} {a : Int} (h : a ∈ ps.map (fun p => p.id)) :
    (ps[(findIndex (fun p => p.id == a) ps).toNat]?.map (fun p => p.id)).getD 0 = a := by
  induction ps with
  | nil => simp at h
  | cons p ps ih =>
    by_cases hp : p.id = a
    · simp [findIndex, hp]
    · have hmem : a ∈ ps.map (fun p => p.id) := by
        simp only [List.map_cons, List.mem_cons] at h
        rcases h with h | h
        · exact absurd h.symm hp
        · exact h
      rw [findIndex_cons_of_ne hmem hp]
      have hnn := findIndex_nonneg_of_mem hmem
      have : (findIndex (fun p => p.id == a) ps + 1).toNat
          = (findIndex (fun p => p.id == a) ps).toNat + 1 := by omega
      rw [this, List.getElem?_cons_succ]
      exact ih hmem

/-- With distinct ids, the input ids are in increasing order of their `findIndex`. -/
theorem findIndex_sorted (ps : List Process) (hid : (ps.map (fun p => p.id)).Nodup) :
    (ps.map (fun p => p.id)).Pairwise
      (fun a b => findIndex (fun p => p.id == a) ps ≤ findIndex (fun p => p.id == b) ps) := by
  induction ps with
  | nil => simp
  | cons p ps ih =>
    simp only [List.map_cons, List.nodup_cons] at hid
    obtain ⟨hp, hnd⟩ := hid
    simp only [List.map_cons, List.pairwise_cons]
    constructor
    · intro b hb
      have h0 : findIndex (fun q => q.id == p.id) (p :: ps) = 0 := by simp [findIndex]
      rw [h0]
      have hb' : b ∈ (p :: ps).map (fun q => q.id) := by
        rw [List.map_cons]
        exact List.mem_cons_of_mem _ hb
      exact findIndex_nonneg_of_mem hb'
    · refine (ih hnd).imp_of_mem ?_
      intro a b ha hb hab
      have hpa : p.id ≠ a := fun h => hp (h ▸ ha)
      have hpb : p.id ≠ b := fun h => hp (h ▸ hb)
      rw [findIndex_cons_of_ne ha hpa, findIndex_cons_of_ne hb hpb]
      omega

/-- Two lists of integers with the same elements, both in non-decreasing order of a key that can
be inverted on them, are equal. -/
theorem eq_of_perm_of_sorted_key {l₁ l₂ : List Int} (f g : Int → Int) (hp : l₁.Perm l₂)
    (h₁ : l₁.Pairwise (fun a b => f a ≤ f b)) (h₂ : l₂.Pairwise (fun a b => f a ≤ f b))
    (hg : ∀ a ∈ l₂, g (f a) = a) : l₁ = l₂ := by
  have hmap : l₁.map f = l₂.map f :=
    List.eq_of_perm_of_sorted (r := (· ≤ ·)) (hp.map f)
      (List.pairwise_map.mpr h₁) (List.pairwise_map.mpr h₂)
  have e₁ : (l₁.map f).map g = l₁ := by
    rw [List.map_map]
    conv_rhs => rw [← List.map_id l₁]
    exact List.map_congr_left (fun a ha => hg a (hp.mem_iff.mp ha))
  have e₂ : (l₂.map f).map g = l₂ := by
    rw [List.map_map]
    conv_rhs => rw [← List.map_id l₂]
    exact List.map_congr_left (fun a ha => hg a ha)
  rw [← e₁, ← e₂, hmap]

/-- With distinct input ids, the processes whose id is in no slot before position `i` are the
input processes that are not the process of a slot before position `i`. -/
theorem notYetScheduled_eq_of_nodup (ps : List Process) (hid : (ps.map (fun p => p.id)).Nodup)
    (g : List GanttSlot) (hg : ∀ s ∈ g, s.toProcess ∈ ps) (i : Nat) :
    notYetScheduled ps g i =
      ps.filter (fun p => decide (p ∉ (g.take i).map GanttSlot.toProcess)) := by
  apply List.filter_congr
  intro p hp
  have hinj := List.inj_on_of_nodup_map hid
  have hiff : p.id ∈ (g.take i).map (fun s => s.id) ↔
      p ∈ (g.take i).map GanttSlot.toProcess := by
    constructor
    · intro h
      obtain ⟨s, hs, hsid⟩ := List.mem_map.mp h
      have hsps := hg s (List.mem_of_mem_take hs)
      exact List.mem_map.mpr ⟨s, hs, hinj hsps hp hsid⟩
    · intro h
      obtain ⟨s, hs, hsp⟩ := List.mem_map.mp h
      exact List.mem_map.mpr ⟨s, hs, by rw [← hsp]⟩
  simp only [hiff]

/-! ## The claims -/

/-- C1: for a non-empty input with pairwise distinct ids and positive burst times, the call
reaches `renderResults` and every slot `s` of the timeline had arrived when it starts
(`s.arrivalTime ≤ s.startTime`) and has the smallest burst time among the input processes whose
id is in no earlier slot and that have arrived by `s.startTime`. -/
theorem C1_slot_is_shortest_ready (ps : List Process) (hne : ps ≠ [])
    (_hid : (ps.map (fun p => p.id)).Nodup) (_hb : ∀ p ∈ ps, 0 < p.burstTime) :
    ∃ c g, calculateSchedule ps = .rendered c g ∧
      ∀ i s, g[i]? = some s →
        s.arrivalTime ≤ s.startTime ∧
        ∀ q ∈ ps, q.id ∉ (g.take i).map (fun x => x.id) → q.arrivalTime ≤ s.startTime →
          s.burstTime ≤ q.burstTime := by
  obtain ⟨k, -, hk⟩ := calculateSchedule_rendered ps hne
  refine ⟨_, _, hk, ?_⟩
  intro i s hs
  have h := (inv_stateAfter ps k).slots i s hs
  exact ⟨h.arrived, h.shortest⟩

/-- C2: for a non-empty input with pairwise distinct ids and positive burst times, let `p` and `q`
be the input processes at positions `i` and `j`, of equal burst time, both still remaining and
both arrived in the state of the loop after some `n` iterations (a selection step, since the ready
set is not empty). If `p` arrives earlier than `q`, or at the same time with `i < j`, the timeline
has the slot of `p` before the slot of `q`. -/
theorem C2_tie_break_order (ps : List Process) (hne : ps ≠ [])
    (hid : (ps.map (fun p => p.id)).Nodup) (_hb : ∀ p ∈ ps, 0 < p.burstTime)
    (p q : Process) (i j : Nat) (hp : ps[i]? = some p) (hq : ps[j]? = some q)
    (hburst : p.burstTime = q.burstTime) (n : Nat)
    (_hpn : p ∈ availableProcesses (stateAfter ps n))
    (_hqn : q ∈ availableProcesses (stateAfter ps n))
    (hord : p.arrivalTime < q.arrivalTime ∨ (p.arrivalTime = q.arrivalTime ∧ i < j)) :
    ∃ c g, calculateSchedule ps = .rendered c g ∧ PlacedBefore g p q := by
  obtain ⟨k, hr, hk⟩ := calculateSchedule_rendered ps hne
  refine ⟨_, _, hk, ?_⟩
  refine tie_placed_before ps hid p q (tie_sorted_order ps p q i j hp hq hburst hord)
    hburst ?_ k hr
  rcases hord with h | ⟨h, -⟩
  · exact le_of_lt h
  · exact le_of_eq h

/-- C3: for a non-empty input with pairwise distinct ids, the timeline has as many slots as there
are input processes, its list of ids is a permutation of the list of input ids, and every input id
occurs in it exactly once. -/
theorem C3_timeline_complete (ps : List Process) (hne : ps ≠ [])
    (hid : (ps.map (fun p => p.id)).Nodup) :
    ∃ c g, calculateSchedule ps = .rendered c g ∧
      g.length = ps.length ∧
      (g.map (fun s => s.id)).Perm (ps.map (fun p => p.id)) ∧
      ∀ p ∈ ps, (g.map (fun s => s.id)).count p.id = 1 := by
  obtain ⟨k, hr, hk⟩ := calculateSchedule_rendered ps hne
  have hperm := final_ids_perm ps k hid hr
  refine ⟨_, _, hk, ?_, hperm, ?_⟩
  · simpa using hperm.length_eq
  · intro p hp
    rw [hperm.count_eq]
    exact List.count_eq_one_of_mem hid (List.mem_map.mpr ⟨p, hp, rfl⟩)

/-- C4 (amended): for a non-empty input with positive burst times, adjacent slots of the timeline
do not overlap (`slot[i].completionTime ≤ slot[i+1].startTime`); and when the latest arrival plus
the sum of all burst times is at most `2^53`, the start times increase strictly. -/
theorem C4_timeline_chronological (ps : List Process) (hne : ps ≠ [])
    (hb : ∀ p ∈ ps, 0 < p.burstTime) :
    ∃ c g, calculateSchedule ps = .rendered c g ∧
      (∀ i a b, g[i]? = some a → g[i + 1]? = some b → a.completionTime ≤ b.startTime) ∧
      (WithinExactRange ps →
        ∀ i a b, g[i]? = some a → g[i + 1]? = some b → a.startTime < b.startTime) := by
  obtain ⟨k, -, hk⟩ := calculateSchedule_rendered ps hne
  have hinv := inv_stateAfter ps k
  have hle : ∀ i a b, (stateAfter ps k).ganttSchedule[i]? = some a →
      (stateAfter ps k).ganttSchedule[i + 1]? = some b → a.completionTime ≤ b.startTime := by
    intro i a b ha hb'
    obtain ⟨m, -, hstart⟩ := (hinv.slots (i + 1) b hb').start
    have hlast :
        lastCompletion ((stateAfter ps k).ganttSchedule.take (i + 1)) = a.completionTime := by
      simp [lastCompletion, List.getLast?_take, ha]
    rw [hlast] at hstart
    rw [hstart]
    exact le_max_left _ _
  refine ⟨_, _, hk, hle, ?_⟩
  intro hrange i a b ha hb'
  have h1 := hle i a b ha hb'
  have h2 := (invExact_stateAfter ps hb hrange k).slots_exact a (List.getElem?_mem ha)
  omega

/-- C4 fails as stated: the two processes of `scenarioLate` arrive at `2^53` with burst time 1;
`2^53 + 1` is not a double and the sum is `2^53`, so both slots start at `2^53` and the start times
do not increase strictly. -/
theorem C4_counterexample :
    scenarioLate ≠ [] ∧ (∀ p ∈ scenarioLate, 0 < p.burstTime) ∧
    calculateSchedule scenarioLate = .rendered scenarioLateCompleted scenarioLateTimeline ∧
    ¬ (∀ i a b, scenarioLateTimeline[i]? = some a → scenarioLateTimeline[i + 1]? = some b →
        a.completionTime ≤ b.startTime ∧ a.startTime < b.startTime) := by
  refine ⟨by decide, by decide, by decide, ?_⟩
  intro h
  have := (h 0 _ _ rfl rfl).2
  exact absurd this (by decide)

/-- C5 (amended): for a non-empty input with non-negative arrival times and positive burst times
in which the latest arrival plus the sum of all burst times is at most `2^53`, every entry of the
`completedProcesses` handed to `renderResults` has `waitingTime ≥ 0` and
`turnaroundTime ≥ burstTime`. -/
theorem C5_metrics_nonnegative (ps : List Process) (hne : ps ≠ [])
    (ha : ∀ p ∈ ps, 0 ≤ p.arrivalTime) (hb : ∀ p ∈ ps, 0 < p.burstTime)
    (hrange : WithinExactRange ps) :
    ∃ c g, calculateSchedule ps = .rendered c g ∧
      ∀ x ∈ c, 0 ≤ x.waitingTime ∧ x.burstTime ≤ x.turnaroundTime := by
  obtain ⟨k, -, hk⟩ := calculateSchedule_rendered ps hne
  refine ⟨_, _, hk, ?_⟩
  intro x hx
  have hx' := (mem_jsSort _ _ x).mp hx
  have hinv := inv_stateAfter ps k
  have hmem : x.toProcess ∈ ps := by
    have h1 : x.toProcess ∈ (stateAfter ps k).completedProcesses.map (fun c => c.toProcess) :=
      List.mem_map.mpr ⟨x, hx', rfl⟩
    rw [hinv.completed_eq] at h1
    obtain ⟨s, hs, hsx⟩ := List.mem_map.mp h1
    rw [← hsx]
    exact hinv.slot_mem s hs
  exact (invExact_stateAfter ps hb hrange k).completed_exact x hx' (ha _ hmem)

/-- C5 fails as stated: the single process of `scenarioLateSingle` arrives at `2^53` with burst
time 1; its completion time `2^53 + 1` is rounded to `2^53`, so its turnaround time is 0, below
its burst time, and its waiting time is -1. -/
theorem C5_counterexample :
    scenarioLateSingle ≠ [] ∧ (∀ p ∈ scenarioLateSingle, 0 ≤ p.arrivalTime) ∧
    (∀ p ∈ scenarioLateSingle, 0 < p.burstTime) ∧
    calculateSchedule scenarioLateSingle =
      .rendered scenarioLateSingleCompleted scenarioLateSingleTimeline ∧
    ¬ (∀ x ∈ scenarioLateSingleCompleted, 0 ≤ x.waitingTime ∧ x.burstTime ≤ x.turnaroundTime) := by
  refine ⟨by decide, by decide, by decide, by decide, by decide⟩

/-- C6: for a non-empty input whose smallest arrival time is `t > 0`, the timeline has a first
slot, that slot starts at `t` and its process arrived at `t`; and the single process with arrival
time 10 and burst time 2 gets start time 10, completion time 12 and waiting time 0. -/
theorem C6_idle_gap_first_slot :
    (∀ (ps : List Process) (t : Int), ps ≠ [] → IsMinArrival t ps → 0 < t →
      ∃ c s rest, calculateSchedule ps = .rendered c (s :: rest) ∧
        s.startTime = t ∧ s.arrivalTime = t) ∧
    (∀ (id : Int) (name color : String),
      calculateSchedule
          [{ id := id, name := name, arrivalTime := 10, burstTime := 2, color := color }] =
        .rendered
          [{ id := id, name := name, arrivalTime := 10, burstTime := 2, color := color,
             completionTime := 12, turnaroundTime := 2, waitingTime := 0 }]
          [{ id := id, name := name, arrivalTime := 10, burstTime := 2, color := color,
             startTime := 10, completionTime := 12 }]) := by
  constructor
  · intro ps t hne hmin ht
    obtain ⟨k, hr, hk⟩ := calculateSchedule_rendered ps hne
    have hinv := inv_stateAfter ps k
    cases hg : (stateAfter ps k).ganttSchedule with
    | nil =>
      obtain ⟨p, hp⟩ := List.exists_mem_of_ne_nil ps hne
      have := final_ids_mem ps k hr p hp
      rw [hg] at this
      simp at this
    | cons s rest =>
      rw [hg] at hk
      refine ⟨_, s, rest, hk, ?_⟩
      have hs : (stateAfter ps k).ganttSchedule[0]? = some s := by rw [hg]; simp
      have hok := hinv.slots 0 s hs
      obtain ⟨m, hm, hstart⟩ := hok.start
      have hmt : m = t := by
        refine IsMinArrival.unique hm (hmin.congr ?_)
        intro q
        simp
      have hstart' : s.startTime = t := by
        rw [hstart, hmt]
        simp only [List.take_zero, lastCompletion, List.getLast?_nil, Option.map_none',
          Option.getD_none]
        exact max_eq_right (le_of_lt ht)
      refine ⟨hstart', ?_⟩
      have h1 := hok.arrived
      have h2 := hmin.2 s.toProcess (hinv.slot_mem s (by rw [hg]; simp))
      omega
  · intro id name color
    have e1 : numAdd 10 2 = 12 := by decide
    have e2 : numSub 12 10 = 2 := by decide
    have e3 : numSub 2 2 = 0 := by decide
    simp [calculateSchedule, whileLoop, initialState, sortedProcesses, jsSort, insertSorted,
      loopBody, availableProcesses, e1, e2, e3]

/-- C7: for a non-empty input with pairwise distinct ids, the ids of the `completedProcesses`
handed to `renderResults` are the ids of `processes`, element by element. -/
theorem C7_metrics_in_submission_order (ps : List Process) (hne : ps ≠ [])
    (hid : (ps.map (fun p => p.id)).Nodup) :
    ∃ c g, calculateSchedule ps = .rendered c g ∧
      c.map (fun x => x.id) = ps.map (fun p => p.id) := by
  obtain ⟨k, hr, hk⟩ := calculateSchedule_rendered ps hne
  refine ⟨_, _, hk, ?_⟩
  have hinv := inv_stateAfter ps k
  have hids : (stateAfter ps k).completedProcesses.map (fun x => x.id)
      = (stateAfter ps k).ganttSchedule.map (fun x => x.id) := by
    have := congrArg (List.map (fun p : Process => p.id)) hinv.completed_eq
    simpa [List.map_map] using this
  have hperm : ((jsSort (originalOrderCmp ps) (stateAfter ps k).completedProcesses).map
      (fun x => x.id)).Perm (ps.map (fun p => p.id)) := by
    refine ((jsSort_perm _ _).map _).trans ?_
    rw [hids]
    exact final_ids_perm ps k hid hr
  have hsorted := jsSort_sorted_of_key (originalOrderCmp ps)
    (by intro a b; simp only [originalOrderCmp, numSub_nonpos_iff]; omega)
    (by intro a b c; simp only [originalOrderCmp, numSub_nonpos_iff]; omega)
    (stateAfter ps k).completedProcesses
  refine eq_of_perm_of_sorted_key (fun a => findIndex (fun p => p.id == a) ps)
    (fun n => (ps[n.toNat]?.map (fun p => p.id)).getD 0) hperm ?_ (findIndex_sorted ps hid) ?_
  · rw [List.pairwise_map]
    refine hsorted.imp ?_
    intro a b hab
    simp only [originalOrderCmp, numSub_nonpos_iff] at hab
    show findIndex (fun p => p.id == a.id) ps ≤ findIndex (fun p => p.id == b.id) ps
    omega
  · intro a ha
    exact findIndex_getElem? ha

/-- C9: for a non-empty input of `n` processes with pairwise distinct ids and positive burst
times the loop terminates (the fuel `2 * n` is enough and the loop condition is false in the
resulting state); it performs exactly `n` selecting iterations and at most `n` idle jumps, and
every idle jump is immediately followed by a selecting iteration. -/
theorem C9_loop_terminates (ps : List Process) (_hne : ps ≠ [])
    (hid : (ps.map (fun p => p.id)).Nodup) (_hb : ∀ p ∈ ps, 0 < p.burstTime) :
    (∃ st, whileLoop (2 * ps.length) (initialState ps) = some st ∧ st.remainingProcesses = []) ∧
    (iterationKinds (2 * ps.length) (initialState ps)).count .selecting = ps.length ∧
    (iterationKinds (2 * ps.length) (initialState ps)).count .idleJump ≤ ps.length ∧
    ∀ i, (iterationKinds (2 * ps.length) (initialState ps))[i]? = some .idleJump →
      (iterationKinds (2 * ps.length) (initialState ps))[i + 1]? = some .selecting := by
  have hlen : (initialState ps).remainingProcesses.length = ps.length := by
    simp [initialState, sortedProcesses, jsSort_length]
  have hfuel : 2 * (initialState ps).remainingProcesses.length ≤
      2 * ps.length + (if (availableProcesses (initialState ps)).length = 0 then 0 else 1) := by
    rw [hlen]
    omega
  have hnd : ((initialState ps).remainingProcesses.map (fun p => p.id)).Nodup :=
    (((sortedProcesses_perm ps).map _).nodup_iff).mpr hid
  obtain ⟨h1, h2, h3, -⟩ := iterationKinds_spec (2 * ps.length) (initialState ps) hnd hfuel
  rw [hlen] at h1 h2
  refine ⟨?_, h1, by omega, h3⟩
  obtain ⟨st, hst⟩ := whileLoop_total (2 * ps.length) (initialState ps) hfuel
  obtain ⟨k, -, hr⟩ := whileLoop_iterate _ _ _ hst
  exact ⟨st, hst, hr⟩

/-- C10: for a non-empty input with non-negative arrival times, `remainingProcesses` is sorted by
arrival time in every state of the loop; an idle jump sets the current time to the minimum arrival
time among the remaining processes and leaves them unchanged; and every slot of the timeline starts
at the maximum of the completion time of the previous slot (0 for the first slot) and the minimum
arrival time among the processes not yet scheduled. -/
theorem C10_idle_jump_to_min_arrival (ps : List Process) (hne : ps ≠ [])
    (_ha : ∀ p ∈ ps, 0 ≤ p.arrivalTime) :
    (∀ k, (stateAfter ps k).remainingProcesses.Pairwise
      (fun a b => a.arrivalTime ≤ b.arrivalTime)) ∧
    (∀ k, (stateAfter ps k).remainingProcesses ≠ [] →
      availableProcesses (stateAfter ps k) = [] →
        IsMinArrival (stateAfter ps (k + 1)).currentTime (stateAfter ps k).remainingProcesses ∧
        (stateAfter ps (k + 1)).remainingProcesses = (stateAfter ps k).remainingProcesses) ∧
    ∃ c g, calculateSchedule ps = .rendered c g ∧
      (∀ i s, g[i]? = some s →
        ∃ m, IsMinArrival m (notYetScheduled ps g i) ∧
          s.startTime = max (lastCompletion (g.take i)) m) ∧
      ((ps.map (fun p => p.id)).Nodup → ∀ i, notYetScheduled ps g i =
        ps.filter (fun p => decide (p ∉ (g.take i).map GanttSlot.toProcess))) := by
  refine ⟨fun k => (inv_stateAfter ps k).remaining_sorted, ?_, ?_⟩
  · intro k hr ha
    cases hrem : (stateAfter ps k).remainingProcesses with
    | nil => exact absurd hrem hr
    | cons first rest =>
      have hsorted := (inv_stateAfter ps k).remaining_sorted
      rw [hrem] at hsorted
      rw [stateAfter_succ, loopBody_idle hrem ha]
      exact ⟨isMinArrival_head hsorted, hrem⟩
  · obtain ⟨k, -, hk⟩ := calculateSchedule_rendered ps hne
    refine ⟨_, _, hk, ?_, ?_⟩
    · intro i s hs
      exact ((inv_stateAfter ps k).slots i s hs).start
    · intro hid i
      exact notYetScheduled_eq_of_nodup ps hid _ (inv_stateAfter ps k).slot_mem i

/-- C8: on scenario A, `[A(0, 5), B(1, 3), C(2, 1)]`, the timeline is A 0-5, C 5-6, B 6-9, the
metrics in input order are A: turnaround 5, waiting 0; B: turnaround 8, waiting 5; C: turnaround 4,
waiting 3, and the averages are 17/3 and 8/3, printed with two decimals as 5.67 and 2.67. -/
theorem C8_scenario_A :
    calculateSchedule scenarioA = .rendered scenarioACompleted scenarioATimeline ∧
    avgTAT scenarioACompleted = 17 / 3 ∧ avgWT scenarioACompleted = 8 / 3 ∧
    toFixed2 (avgTAT scenarioACompleted) = 567 ∧ toFixed2 (avgWT scenarioACompleted) = 267 := by
  have s1 : numAdd (numAdd (numAdd 0 5) 8) 4 = 17 := by decide
  have s2 : numAdd (numAdd (numAdd 0 0) 5) 3 = 8 := by decide
  have h1 : avgTAT scenarioACompleted = 17 / 3 := by
    simp only [avgTAT, scenarioACompleted, List.map, List.foldl, List.length, s1]
    norm_num
  have h2 : avgWT scenarioACompleted = 8 / 3 := by
    simp only [avgWT, scenarioACompleted, List.map, List.foldl, List.length, s2]
    norm_num
  have n1 : ((17 : ℚ) / 3).num = 17 := by
    have h := Rat.num_div_eq_of_coprime (a := 17) (b := 3) (by decide) (by decide)
    simpa using h
  have d1 : ((17 : ℚ) / 3).den = 3 := by
    have h := Rat.den_div_eq_of_coprime (a := 17) (b := 3) (by decide) (by decide)
    simp only [Int.cast_ofNat] at h
    omega
  have n2 : ((8 : ℚ) / 3).num = 8 := by
    have h := Rat.num_div_eq_of_coprime (a := 8) (b := 3) (by decide) (by decide)
    simpa using h
  have d2 : ((8 : ℚ) / 3).den = 3 := by
    have h := Rat.den_div_eq_of_coprime (a := 8) (b := 3) (by decide) (by decide)
    simp only [Int.cast_ofNat] at h
    omega
  have x1 : ¬ ((17 : ℚ) / 3 < 0) := by norm_num
  have x2 : ¬ ((8 : ℚ) / 3 < 0) := by norm_num
  refine ⟨by decide, h1, h2, ?_, ?_⟩
  · rw [h1]
    simp only [toFixed2, n1, d1, if_neg x1]
    decide
  · rw [h2]
    simp only [toFixed2, n2, d2, if_neg x2]
    decide

/-! ## The claims at concrete inputs -/

theorem C1_slot_is_shortest_ready_witness :
    scenarioA ≠ [] ∧ (scenarioA.map (fun p => p.id)).Nodup ∧
    (∀ p ∈ scenarioA, 0 < p.burstTime) ∧
    ∃ c g, calculateSchedule scenarioA = .rendered c g ∧
      ∀ i s, g[i]? = some s →
        s.arrivalTime ≤ s.startTime ∧
        ∀ q ∈ scenarioA, q.id ∉ (g.take i).map (fun x => x.id) → q.arrivalTime ≤ s.startTime →
          s.burstTime ≤ q.burstTime :=
  ⟨by decide, by decide, by decide,
    C1_slot_is_shortest_ready scenarioA (by decide) (by decide) (by decide)⟩

theorem C2_tie_break_order_witness :
    scenarioTie ≠ [] ∧ (scenarioTie.map (fun p => p.id)).Nodup ∧
    (∀ p ∈ scenarioTie, 0 < p.burstTime) ∧
    availableProcesses (stateAfter scenarioTie 1) =
      [ { id := 2, name := "P2", arrivalTime := 1, burstTime := 2, color := "#4ECDC4" },
        { id := 3, name := "P3", arrivalTime := 1, burstTime := 2, color := "#45B7D1" } ] ∧
    ∃ c g, calculateSchedule scenarioTie = .rendered c g ∧
      PlacedBefore g
        { id := 2, name := "P2", arrivalTime := 1, burstTime := 2, color := "#4ECDC4" }
        { id := 3, name := "P3", arrivalTime := 1, burstTime := 2, color := "#45B7D1" } :=
  ⟨by decide, by decide, by decide, by decide,
    C2_tie_break_order scenarioTie (by decide) (by decide) (by decide)
      { id := 2, name := "P2", arrivalTime := 1, burstTime := 2, color := "#4ECDC4" }
      { id := 3, name := "P3", arrivalTime := 1, burstTime := 2, color := "#45B7D1" }
      1 2 (by decide) (by decide) (by decide) 1 (by decide) (by decide)
      (Or.inr ⟨by decide, by decide⟩)⟩

theorem C3_timeline_complete_witness :
    scenarioA ≠ [] ∧ (scenarioA.map (fun p => p.id)).Nodup ∧
    ∃ c g, calculateSchedule scenarioA = .rendered c g ∧
      g.length = scenarioA.length ∧
      (g.map (fun s => s.id)).Perm (scenarioA.map (fun p => p.id)) ∧
      ∀ p ∈ scenarioA, (g.map (fun s => s.id)).count p.id = 1 :=
  ⟨by decide, by decide, C3_timeline_complete scenarioA (by decide) (by decide)⟩

theorem C4_timeline_chronological_witness :
    scenarioA ≠ [] ∧ (∀ p ∈ scenarioA, 0 < p.burstTime) ∧ WithinExactRange scenarioA ∧
    ∃ c g, calculateSchedule scenarioA = .rendered c g ∧
      (∀ i a b, g[i]? = some a → g[i + 1]? = some b → a.completionTime ≤ b.startTime) ∧
      (∀ i a b, g[i]? = some a → g[i + 1]? = some b → a.startTime < b.startTime) := by
  have hrange : WithinExactRange scenarioA := by
    unfold WithinExactRange
    decide
  obtain ⟨c, g, hc, h1, h2⟩ := C4_timeline_chronological scenarioA (by decide) (by decide)
  exact ⟨by decide, by decide, hrange, c, g, hc, h1, h2 hrange⟩

theorem C5_metrics_nonnegative_witness :
    scenarioA ≠ [] ∧ (∀ p ∈ scenarioA, 0 ≤ p.arrivalTime) ∧
    (∀ p ∈ scenarioA, 0 < p.burstTime) ∧ WithinExactRange scenarioA ∧
    ∃ c g, calculateSchedule scenarioA = .rendered c g ∧
      ∀ x ∈ c, 0 ≤ x.waitingTime ∧ x.burstTime ≤ x.turnaroundTime := by
  have hrange : WithinExactRange scenarioA := by
    unfold WithinExactRange
    decide
  exact ⟨by decide, by decide, by decide, hrange,
    C5_metrics_nonnegative scenarioA (by decide) (by decide) (by decide) hrange⟩

theorem C6_idle_gap_first_slot_witness :
    scenarioB ≠ [] ∧ IsMinArrival 10 scenarioB ∧ (0 : Int) < 10 ∧
    ∃ c s rest, calculateSchedule scenarioB = .rendered c (s :: rest) ∧
      s.startTime = 10 ∧ s.arrivalTime = 10 :=
  ⟨by decide, by simp [IsMinArrival, scenarioB], by decide,
    C6_idle_gap_first_slot.1 scenarioB 10 (by decide) (by simp [IsMinArrival, scenarioB])
      (by decide)⟩

theorem C7_metrics_in_submission_order_witness :
    scenarioA ≠ [] ∧ (scenarioA.map (fun p => p.id)).Nodup ∧
    ∃ c g, calculateSchedule scenarioA = .rendered c g ∧
      c.map (fun x => x.id) = scenarioA.map (fun p => p.id) :=
  ⟨by decide, by decide, C7_metrics_in_submission_order scenarioA (by decide) (by decide)⟩

theorem C9_loop_terminates_witness :
    scenarioB ≠ [] ∧ (scenarioB.map (fun p => p.id)).Nodup ∧
    (∀ p ∈ scenarioB, 0 < p.burstTime) ∧
    iterationKinds (2 * scenarioB.length) (initialState scenarioB) = [.idleJump, .selecting] ∧
    (∃ st, whileLoop (2 * scenarioB.length) (initialState scenarioB) = some st ∧
      st.remainingProcesses = []) ∧
    (iterationKinds (2 * scenarioB.length) (initialState scenarioB)).count .selecting
      = scenarioB.length ∧
    (iterationKinds (2 * scenarioB.length) (initialState scenarioB)).count .idleJump
      ≤ scenarioB.length ∧
    ∀ i, (iterationKinds (2 * scenarioB.length) (initialState scenarioB))[i]? = some .idleJump →
      (iterationKinds (2 * scenarioB.length) (initialState scenarioB))[i + 1]? = some .selecting :=
  ⟨by decide, by decide, by decide, by decide,
    C9_loop_terminates scenarioB (by decide) (by decide) (by decide)⟩

theorem C10_idle_jump_to_min_arrival_witness :
    scenarioB ≠ [] ∧ (∀ p ∈ scenarioB, 0 ≤ p.arrivalTime) ∧
    availableProcesses (stateAfter scenarioB 0) = [] ∧
    (stateAfter scenarioB 1).currentTime = 10 ∧
    (∀ k, (stateAfter scenarioB k).remainingProcesses.Pairwise
      (fun a b => a.arrivalTime ≤ b.arrivalTime)) ∧
    (∀ k, (stateAfter scenarioB k).remainingProcesses ≠ [] →
      availableProcesses (stateAfter scenarioB k) = [] →
        IsMinArrival (stateAfter scenarioB (k + 1)).currentTime
          (stateAfter scenarioB k).remainingProcesses ∧
        (stateAfter scenarioB (k + 1)).remainingProcesses
          = (stateAfter scenarioB k).remainingProcesses) ∧
    ∃ c g, calculateSchedule scenarioB = .rendered c g ∧
      (∀ i s, g[i]? = some s →
        ∃ m, IsMinArrival m (notYetScheduled scenarioB g i) ∧
          s.startTime = max (lastCompletion (g.take i)) m) ∧
      ((scenarioB.map (fun p => p.id)).Nodup → ∀ i, notYetScheduled scenarioB g i =
        scenarioB.filter (fun p => decide (p ∉ (g.take i).map GanttSlot.toProcess))) :=
  ⟨by decide, by decide, by decide, by decide,
    C10_idle_jump_to_min_arrival scenarioB (by decide) (by decide)⟩

end SJF
